import Mathlib

/-!
Verification of the tick_backtest per-tick metric pipeline.

Shallow embedding of the metric primitives and indicators of the
repository (Cython sources under `src/tick_backtest/metrics`): the
monotonic min/max queue, the threshold-reversion metric, the session
metric, the time-weighted histogram, the time-rolling window, the EWMA
primitive, the z-score metric, the spread metric and the metrics
manager.  IEEE doubles are modelled as `Option ℚ` (or `Option ℝ` where
a transcendental function appears): `none` stands for a non-finite
value (NaN); every arithmetic operation propagates `none` and every
comparison against `none` is `false`, matching IEEE NaN semantics for
the operations the code performs.  Exact rational (respectively real)
arithmetic stands for double arithmetic; rounding is not modelled.
-/

namespace TickBacktest

/-- Doubles that may be non-finite: `none` is NaN (all non-finite values
collapsed), `some x` a finite value. -/
abbrev FVal (α : Type) := Option α

section FOps

variable {α : Type} [LinearOrderedField α]

/-- NaN-propagating subtraction. -/
def fsub : FVal α → FVal α → FVal α
  | some a, some b => some (a - b)
  | _, _ => none

/-- NaN-propagating absolute value (`fabs`). -/
def fabsF : FVal α → FVal α
  | some a => some |a|
  | none => none

/-- NaN-propagating division; division by zero yields a non-finite
result (IEEE gives ±inf or NaN there, both collapsed to `none`). -/
def fdiv : FVal α → FVal α → FVal α
  | some a, some b => if b = 0 then none else some (a / b)
  | _, _ => none

/-- IEEE `<=` comparison: false whenever either side is NaN. -/
def fleB [DecidableEq α] [∀ a b : α, Decidable (a ≤ b)] : FVal α → FVal α → Bool
  | some a, some b => decide (a ≤ b)
  | _, _ => false

/-- IEEE `<` comparison: false whenever either side is NaN. -/
def fltB [∀ a b : α, Decidable (a < b)] : FVal α → FVal α → Bool
  | some a, some b => decide (a < b)
  | _, _ => false

/-- `isfinite` from libc: true exactly on finite values. -/
def isfiniteB : FVal α → Bool
  | some _ => true
  | none => false

end FOps

/-! ### Session metric (`_session_metric.pyx`, `SessionMetric`)

`_build_table` assigns a label to each minute-of-day index by the hour
ranges in the source; `update_from_struct` clamps `hour*60 + minute`
into `[0, 1439]` and looks the label up. -/

/-- `_build_table` entry for minute-of-day `idx` (the loop body of
`_build_table` in `_session_metric.pyx`). -/
def sessionTableEntry (idx : ℕ) : String :=
  let hour := idx / 60
  if 22 ≤ hour ∨ hour < 7 then "Asia"
  else if 7 ≤ hour ∧ hour < 12 then "London"
  else if 12 ≤ hour ∧ hour < 16 then "London_New_York_Overlap"
  else if 16 ≤ hour ∧ hour < 21 then "New_York"
  else "Other"

/-- State of `SessionMetric`: the label stored by the last update
(`"Other"` at construction). -/
structure SessionState where
  session : String
deriving DecidableEq

/-- Fresh `SessionMetric` state (constructor). -/
def sessionInit : SessionState := ⟨"Other"⟩

/-- `SessionMetric.update_from_struct`: clamp `hour*60+minute` into the
table range and look up the label.  The tick's wall-clock components are
naturals here (the producer derives them from the timestamp). -/
def sessionUpdate (_s : SessionState) (hour minute : ℕ) : SessionState :=
  let idx := hour * 60 + minute
  let idx := if idx ≥ 1440 then 1439 else idx
  ⟨sessionTableEntry idx⟩

/-- The fixed session table exactly as the specification words it:
`22:00–06:59 Asia; 07:00–11:59 London; 12:00–15:59 Overlap;
16:00–20:59 New_York; 21:00–21:59 Other`. -/
def specSessionLabel (hour : ℕ) : String :=
  if 22 ≤ hour ∨ hour ≤ 6 then "Asia"
  else if hour ≤ 11 then "London"
  else if hour ≤ 15 then "London_New_York_Overlap"
  else if hour ≤ 20 then "New_York"
  else "Other"

/-- C9: for every tick whose hour is in `[0, 23]` and minute in
`[0, 59]`, after `SessionMetric.update` the stored `session_label`
equals the fixed table value claimed by the spec (Asia 22:00–06:59,
London 07:00–11:59, London_New_York_Overlap 12:00–15:59, New_York
16:00–20:59, Other 21:00–21:59); in particular 14:30 gives
London_New_York_Overlap, 23:00 gives Asia and 21:00 gives Other. -/
theorem session_label_matches_table (s : SessionState) (hour minute : ℕ)
    (hh : hour ≤ 23) (hm : minute ≤ 59) :
    (sessionUpdate s hour minute).session = specSessionLabel hour := by
  have hh' : hour < 24 := Nat.lt_succ_of_le hh
  have hm' : minute < 60 := Nat.lt_succ_of_le hm
  have key : ∀ h' < 24, ∀ m' < 60,
      sessionTableEntry
          (if h' * 60 + m' ≥ 1440 then 1439 else h' * 60 + m') =
        specSessionLabel h' := by decide
  exact key hour hh' minute hm'

/-- Witness for C9: the three concrete scenarios of the spec. -/
theorem session_label_matches_table_witness :
    (sessionUpdate sessionInit 14 30).session = "London_New_York_Overlap" ∧
      (sessionUpdate sessionInit 23 0).session = "Asia" ∧
      (sessionUpdate sessionInit 21 0).session = "Other" :=
  ⟨by rw [session_label_matches_table sessionInit 14 30 (by decide) (by decide)]; rfl,
   by rw [session_label_matches_table sessionInit 23 0 (by decide) (by decide)]; rfl,
   by rw [session_label_matches_table sessionInit 21 0 (by decide) (by decide)]; rfl⟩

/-! ### Time-rolling window (`_base_metric.pyx`, `TimeRollingWindow`)

The circular buffer is modelled as a list (head first).  The source's
`isfinite` guards on the running sums and on `raw` in `stats` are
always true in the exact rational model and are noted in doc comments
where elided. -/

/-- `EPS` from `_base_metric.pyx` (`1e-12`). -/
def eps12 : ℚ := 1 / 10 ^ 12

/-- `MIN_DT` from `_base_metric.pyx` (`1e-9`). -/
def minDt : ℚ := 1 / 10 ^ 9

/-- One buffer slot of `TimeRollingWindow`: timestamp, value and the
weight (time served in the window). -/
structure TRWEntry where
  ts : ℚ
  val : ℚ
  dt : ℚ
deriving DecidableEq

/-- State of `TimeRollingWindow`: lookback, buffer contents (head
first) and the three running sums. -/
structure TRWState where
  lookback : ℚ
  entries : List TRWEntry
  sum_w : ℚ
  sum_x : ℚ
  sum_x2 : ℚ
deriving DecidableEq

/-- `TimeRollingWindow.__cinit__`. -/
def trwInit (lookback : ℚ) : TRWState :=
  ⟨lookback, [], 0, 0, 0⟩

/-- The `while` loop of `TimeRollingWindow._trim`: pop the head while
its end time is `≤ cutoff − EPS`, partially trim a straddling head
entry, and stop otherwise.  Returns the remaining entries and the
adjusted running sums. -/
def trwTrimGo (cutoff : ℚ) :
    List TRWEntry → ℚ → ℚ → ℚ → List TRWEntry × ℚ × ℚ × ℚ
  | [], w, x, x2 => ([], w, x, x2)
  | e :: rest, w, x, x2 =>
    if e.ts + e.dt ≤ cutoff - eps12 then
      trwTrimGo cutoff rest (w - e.dt) (x - e.dt * e.val)
        (x2 - e.dt * e.val * e.val)
    else if e.ts < cutoff ∧ cutoff < e.ts + e.dt then
      let dropDt0 := cutoff - e.ts
      let keepDt0 := e.dt - dropDt0
      let keepDt := if keepDt0 < 0 then 0 else keepDt0
      let dropDt := if keepDt0 < 0 then e.dt else dropDt0
      (⟨cutoff, e.val, keepDt⟩ :: rest, w - dropDt, x - dropDt * e.val,
        x2 - dropDt * e.val * e.val)
    else (e :: rest, w, x, x2)

/-- `TimeRollingWindow._trim`: early return on an empty buffer, the
trimming loop, then the epsilon clamp of the running sums. -/
def trwTrim (s : TRWState) (ts : ℚ) : TRWState :=
  if s.entries = [] then s
  else
    let r := trwTrimGo (ts - s.lookback) s.entries s.sum_w s.sum_x s.sum_x2
    let w := r.2.1
    let x := r.2.2.1
    let x2 := r.2.2.2
    if |w| < eps12 then ⟨s.lookback, r.1, 0, 0, 0⟩
    else if w < 0 ∧ -eps12 < w then ⟨s.lookback, r.1, 0, x, x2⟩
    else ⟨s.lookback, r.1, w, x, x2⟩

/-- `TimeRollingWindow.append`: skip silently when any input is
non-finite, clamp a non-positive `dt` to `MIN_DT`, push the entry,
update the running sums and trim at the new timestamp. -/
def trwAppendF (s : TRWState) (ts value dt : FVal ℚ) : TRWState :=
  match ts, value, dt with
  | some t, some v, some d =>
    let d := if d ≤ 0 then minDt else d
    trwTrim
      ⟨s.lookback, s.entries ++ [⟨t, v, d⟩], s.sum_w + d, s.sum_x + d * v,
        s.sum_x2 + d * v * v⟩ t
  | _, _, _ => s

/-- `TimeRollingWindow.stats`: `(NaN, NaN)` when the running weight is
`≤ 1e-12`, else the weighted mean and the weighted population standard
deviation with the variance clipped at zero.  The source's `isfinite`
guards on the sums and on `raw` always pass in exact arithmetic. -/
noncomputable def trwStats (s : TRWState) : FVal ℝ × FVal ℝ :=
  if s.sum_w ≤ eps12 then (none, none)
  else
    let mean : ℚ := s.sum_x / s.sum_w
    let raw : ℚ := s.sum_x2 / s.sum_w - mean * mean
    let var : ℚ := if 0 < raw then raw else 0
    (some (mean : ℝ), some (Real.sqrt (var : ℝ)))

/-- C7: `TimeRollingWindow.append` with any non-finite argument leaves
the state unchanged, and `TimeRollingWindow.stats` returns `(NaN, NaN)`
whenever the running weight is `≤ 1e-12`. -/
theorem trw_append_nonfinite_skip_and_stats_nan
    (s : TRWState) (ts v dt : FVal ℚ)
    (h : ts = none ∨ v = none ∨ dt = none)
    (s2 : TRWState) (h2 : s2.sum_w ≤ eps12) :
    trwAppendF s ts v dt = s ∧ trwStats s2 = (none, none) := by
  constructor
  · rcases h with h | h | h <;> subst h
    · rfl
    · cases ts <;> rfl
    · cases ts <;> cases v <;> rfl
  · unfold trwStats
    rw [if_pos h2]

/-- Witness for C7 at a concrete window and concrete non-finite
arguments. -/
theorem trw_append_nonfinite_skip_and_stats_nan_witness :
    trwAppendF (trwInit 60) none (some 1) (some 1) = trwInit 60 ∧
      trwStats (trwInit 60) = (none, none) :=
  trw_append_nonfinite_skip_and_stats_nan (trwInit 60) none (some 1) (some 1)
    (Or.inl rfl) (trwInit 60) (by simp [trwInit, eps12])

/-- Total weight carried by a list of window entries. -/
def sumDt (es : List TRWEntry) : ℚ := (es.map (fun e => e.dt)).sum

/-- Total weighted value carried by a list of window entries. -/
def sumXv (es : List TRWEntry) : ℚ := (es.map (fun e => e.dt * e.val)).sum

/-- Total weighted squared value carried by a list of window entries. -/
def sumXv2 (es : List TRWEntry) : ℚ :=
  (es.map (fun e => e.dt * e.val * e.val)).sum

lemma sumDt_nil : sumDt [] = 0 := rfl

lemma sumDt_cons (e : TRWEntry) (es : List TRWEntry) :
    sumDt (e :: es) = e.dt + sumDt es := by simp [sumDt]

lemma sumXv_cons (e : TRWEntry) (es : List TRWEntry) :
    sumXv (e :: es) = e.dt * e.val + sumXv es := by simp [sumXv]

lemma sumXv2_cons (e : TRWEntry) (es : List TRWEntry) :
    sumXv2 (e :: es) = e.dt * e.val * e.val + sumXv2 es := by simp [sumXv2]

lemma sumDt_append (a b : List TRWEntry) :
    sumDt (a ++ b) = sumDt a + sumDt b := by simp [sumDt]

lemma sumXv_append (a b : List TRWEntry) :
    sumXv (a ++ b) = sumXv a + sumXv b := by simp [sumXv]

lemma sumXv2_append (a b : List TRWEntry) :
    sumXv2 (a ++ b) = sumXv2 a + sumXv2 b := by simp [sumXv2]

lemma sumDt_nonneg {es : List TRWEntry} (h : ∀ e ∈ es, 0 ≤ e.dt) :
    0 ≤ sumDt es := by
  unfold sumDt
  apply List.sum_nonneg
  intro q hq
  obtain ⟨e, he, rfl⟩ := List.mem_map.1 hq
  exact h e he

/-- Well-formedness of a window state: non-negative entry weights,
running sums that equal the exact sums over the buffer, and a positive
lookback (every in-repo constructor validates `lookback > 0`). -/
def TRWWf (s : TRWState) : Prop :=
  (∀ e ∈ s.entries, 0 ≤ e.dt) ∧ s.sum_w = sumDt s.entries ∧
    s.sum_x = sumXv s.entries ∧ s.sum_x2 = sumXv2 s.entries ∧
    0 < s.lookback

lemma trwInit_wf {L : ℚ} (hL : 0 < L) : TRWWf (trwInit L) :=
  ⟨by simp [trwInit], rfl, rfl, rfl, hL⟩

/-- Specification of the trimming loop: weights stay non-negative, the
running sums track the buffer exactly, surviving entries keep values
that were already present, and an untouched tail entry (one that is
neither evicted nor straddling) survives at the tail. -/
lemma trwTrimGo_spec (cutoff : ℚ) :
    ∀ es : List TRWEntry, (∀ e ∈ es, 0 ≤ e.dt) →
      ∀ w x x2 : ℚ, w = sumDt es → x = sumXv es → x2 = sumXv2 es →
      (∀ e ∈ (trwTrimGo cutoff es w x x2).1, 0 ≤ e.dt) ∧
        (trwTrimGo cutoff es w x x2).2.1 =
          sumDt (trwTrimGo cutoff es w x x2).1 ∧
        (trwTrimGo cutoff es w x x2).2.2.1 =
          sumXv (trwTrimGo cutoff es w x x2).1 ∧
        (trwTrimGo cutoff es w x x2).2.2.2 =
          sumXv2 (trwTrimGo cutoff es w x x2).1 ∧
        (∀ e ∈ (trwTrimGo cutoff es w x x2).1, ∃ e' ∈ es, e.val = e'.val) ∧
        (∀ pre lastE, es = pre ++ [lastE] →
          ¬ lastE.ts + lastE.dt ≤ cutoff - eps12 → ¬ lastE.ts < cutoff →
          ∃ pre2, (trwTrimGo cutoff es w x x2).1 = pre2 ++ [lastE]) := by
  intro es
  induction es with
  | nil =>
    intro _ w x x2 hw hx hx2
    refine ⟨by simp [trwTrimGo], ?_, ?_, ?_, by simp [trwTrimGo], ?_⟩
    · simpa [trwTrimGo] using hw
    · simpa [trwTrimGo] using hx
    · simpa [trwTrimGo] using hx2
    · intro pre lastE hpre
      exact absurd hpre (by simp)
  | cons e rest ih =>
    intro hnn w x x2 hw hx hx2
    by_cases h1 : e.ts + e.dt ≤ cutoff - eps12
    · have hrec := ih (fun a ha => hnn a (List.mem_cons_of_mem _ ha))
        (w - e.dt) (x - e.dt * e.val) (x2 - e.dt * e.val * e.val)
        (by rw [hw, sumDt_cons]; ring)
        (by rw [hx, sumXv_cons]; ring)
        (by rw [hx2, sumXv2_cons]; ring)
      obtain ⟨r1, r2, r3, r4, r5, r6⟩ := hrec
      have heq : trwTrimGo cutoff (e :: rest) w x x2 =
          trwTrimGo cutoff rest (w - e.dt) (x - e.dt * e.val)
            (x2 - e.dt * e.val * e.val) := by
        simp only [trwTrimGo, if_pos h1]
      rw [heq]
      refine ⟨r1, r2, r3, r4, ?_, ?_⟩
      · intro a ha
        obtain ⟨e', he', hv⟩ := r5 a ha
        exact ⟨e', List.mem_cons_of_mem _ he', hv⟩
      · intro pre lastE hpre hl1 hl2
        cases pre with
        | nil =>
          simp only [List.nil_append, List.cons.injEq] at hpre
          exact absurd (hpre.1 ▸ h1) hl1
        | cons p pre' =>
          simp only [List.cons_append, List.cons.injEq] at hpre
          exact r6 pre' lastE hpre.2 hl1 hl2
    · by_cases h2 : e.ts < cutoff ∧ cutoff < e.ts + e.dt
      · have heq : trwTrimGo cutoff (e :: rest) w x x2 =
            (⟨cutoff, e.val,
                if e.dt - (cutoff - e.ts) < 0 then 0
                else e.dt - (cutoff - e.ts)⟩ :: rest,
              w - (if e.dt - (cutoff - e.ts) < 0 then e.dt else cutoff - e.ts),
              x - (if e.dt - (cutoff - e.ts) < 0 then e.dt
                else cutoff - e.ts) * e.val,
              x2 - (if e.dt - (cutoff - e.ts) < 0 then e.dt
                else cutoff - e.ts) * e.val * e.val) := by
          simp only [trwTrimGo, if_neg h1, if_pos h2]
        rw [heq]
        set keepDt : ℚ :=
          if e.dt - (cutoff - e.ts) < 0 then 0 else e.dt - (cutoff - e.ts)
          with hkeep
        set dropDt : ℚ :=
          if e.dt - (cutoff - e.ts) < 0 then e.dt else cutoff - e.ts
          with hdrop
        have hkd : e.dt - dropDt = keepDt := by
          by_cases h3 : e.dt - (cutoff - e.ts) < 0 <;>
            simp [hkeep, hdrop, h3]
        have hknn : 0 ≤ keepDt := by
          by_cases h3 : e.dt - (cutoff - e.ts) < 0
          · simp [hkeep, h3]
          · simp only [hkeep, if_neg h3]
            linarith [not_lt.1 h3]
        refine ⟨?_, ?_, ?_, ?_, ?_, ?_⟩
        · intro a ha
          rcases List.mem_cons.1 ha with rfl | ha
          · exact hknn
          · exact hnn a (List.mem_cons_of_mem _ ha)
        · rw [hw, sumDt_cons, sumDt_cons]
          simp only []
          linarith [hkd]
        · rw [hx, sumXv_cons, sumXv_cons]
          simp only []
          have : e.dt * e.val - dropDt * e.val = keepDt * e.val := by
            rw [← hkd]; ring
          linarith [this]
        · rw [hx2, sumXv2_cons, sumXv2_cons]
          simp only []
          have : e.dt * e.val * e.val - dropDt * e.val * e.val =
              keepDt * e.val * e.val := by
            rw [← hkd]; ring
          linarith [this]
        · intro a ha
          rcases List.mem_cons.1 ha with rfl | ha
          · exact ⟨e, List.mem_cons_self _ _, rfl⟩
          · exact ⟨a, List.mem_cons_of_mem _ ha, rfl⟩
        · intro pre lastE hpre hl1 hl2
          cases pre with
          | nil =>
            simp only [List.nil_append, List.cons.injEq] at hpre
            exact absurd (hpre.1 ▸ h2.1) hl2
          | cons p pre' =>
            simp only [List.cons_append, List.cons.injEq] at hpre
            refine ⟨⟨cutoff, e.val, keepDt⟩ :: pre', ?_⟩
            rw [hpre.2]
            rfl
      · have heq : trwTrimGo cutoff (e :: rest) w x x2 =
            (e :: rest, w, x, x2) := by
          simp only [trwTrimGo, if_neg h1, if_neg h2]
        rw [heq]
        refine ⟨hnn, hw, hx, hx2, fun a ha => ⟨a, ha, rfl⟩, ?_⟩
        intro pre lastE hpre _ _
        exact ⟨pre, hpre⟩

/-- Appending a finite sample whose `dt` is either non-positive (the
source clamps it to `MIN_DT`) or above `EPS` preserves window
well-formedness, leaves the running weight above `EPS` (so the
epsilon clamp in `_trim` never fires on such appends), and introduces
no value other than the appended one. -/
lemma trwAppendF_wf (s : TRWState) (t v d : ℚ) (hwf : TRWWf s)
    (hd : d ≤ 0 ∨ eps12 < d) :
    TRWWf (trwAppendF s (some t) (some v) (some d)) ∧
      eps12 < (trwAppendF s (some t) (some v) (some d)).sum_w ∧
      (∀ e ∈ (trwAppendF s (some t) (some v) (some d)).entries,
        e.val = v ∨ ∃ e' ∈ s.entries, e.val = e'.val) := by
  obtain ⟨hnn, hw, hx, hx2, hL⟩ := hwf
  have heps : (0 : ℚ) < eps12 := by norm_num [eps12]
  have hmin : eps12 < minDt := by norm_num [eps12, minDt]
  set dEff : ℚ := if d ≤ 0 then minDt else d with hdEff
  have hdpos : eps12 < dEff := by
    by_cases h : d ≤ 0
    · simp only [hdEff, if_pos h]; exact hmin
    · simp only [hdEff, if_neg h]
      rcases hd with h' | h'
      · exact absurd h' h
      · exact h'
  have happ : trwAppendF s (some t) (some v) (some d) =
      trwTrim ⟨s.lookback, s.entries ++ [⟨t, v, dEff⟩], s.sum_w + dEff,
        s.sum_x + dEff * v, s.sum_x2 + dEff * v * v⟩ t := rfl
  set newE : TRWEntry := ⟨t, v, dEff⟩ with hnewE
  set es0 : List TRWEntry := s.entries ++ [newE] with hes0
  have hnn0 : ∀ e ∈ es0, 0 ≤ e.dt := by
    intro e he
    rcases List.mem_append.1 he with he | he
    · exact hnn e he
    · rcases List.mem_singleton.1 he with rfl
      exact le_of_lt (lt_trans heps hdpos)
  have hw0 : s.sum_w + dEff = sumDt es0 := by
    rw [hes0, sumDt_append, hw]; simp [sumDt, hnewE]
  have hx0 : s.sum_x + dEff * v = sumXv es0 := by
    rw [hes0, sumXv_append, hx]; simp [sumXv, hnewE]
  have hx20 : s.sum_x2 + dEff * v * v = sumXv2 es0 := by
    rw [hes0, sumXv2_append, hx2]; simp [sumXv2, hnewE]
  obtain ⟨r1, r2, r3, r4, r5, r6⟩ :=
    trwTrimGo_spec (t - s.lookback) es0 hnn0 (s.sum_w + dEff)
      (s.sum_x + dEff * v) (s.sum_x2 + dEff * v * v) hw0 hx0 hx20
  have htail : ∃ pre2,
      (trwTrimGo (t - s.lookback) es0 (s.sum_w + dEff)
        (s.sum_x + dEff * v) (s.sum_x2 + dEff * v * v)).1 =
        pre2 ++ [newE] := by
    refine r6 s.entries newE rfl ?_ ?_
    · simp only [hnewE, not_le]
      have : (0 : ℚ) < dEff := lt_trans heps hdpos
      linarith
    · simp only [hnewE, not_lt]
      linarith
  obtain ⟨pre2, hpre2⟩ := htail
  set r := trwTrimGo (t - s.lookback) es0 (s.sum_w + dEff)
    (s.sum_x + dEff * v) (s.sum_x2 + dEff * v * v) with hr
  have hwpos : eps12 < r.2.1 := by
    rw [r2, hpre2, sumDt_append]
    have h1 : 0 ≤ sumDt pre2 := by
      apply sumDt_nonneg
      intro e he
      exact r1 e (by rw [hpre2]; exact List.mem_append_left _ he)
    have h2 : sumDt [newE] = dEff := by simp [sumDt, hnewE]
    rw [h2]
    linarith
  have hne0 : es0 ≠ [] := by simp [hes0]
  have htrim : trwTrim ⟨s.lookback, es0, s.sum_w + dEff,
      s.sum_x + dEff * v, s.sum_x2 + dEff * v * v⟩ t =
      ⟨s.lookback, r.1, r.2.1, r.2.2.1, r.2.2.2⟩ := by
    unfold trwTrim
    rw [if_neg hne0]
    have hc1 : ¬ |r.2.1| < eps12 := by
      rw [abs_of_pos (lt_trans heps hwpos)]
      exact not_lt.2 (le_of_lt hwpos)
    have hc2 : ¬ (r.2.1 < 0 ∧ -eps12 < r.2.1) := by
      intro hcon
      exact absurd (lt_trans heps hwpos) (not_lt.2 (le_of_lt hcon.1))
    simp only [← hr, if_neg hc1, if_neg hc2]
  rw [happ, htrim]
  refine ⟨⟨r1, r2, r3, r4, hL⟩, hwpos, ?_⟩
  intro e he
  obtain ⟨e', he', hv⟩ := r5 e he
  rcases List.mem_append.1 he' with he' | he'
  · exact Or.inr ⟨e', he', hv⟩
  · rcases List.mem_singleton.1 he' with rfl
    exact Or.inl hv

/-- A sequence of `append(t, C, dt)` calls with the constant value `C`
(the scenario of spec property 8.1). -/
def trwRunConst (s : TRWState) (C : ℚ) (tds : List (ℚ × ℚ)) : TRWState :=
  tds.foldl (fun st td => trwAppendF st (some td.1) (some C) (some td.2)) s

lemma sumXv_const {C : ℚ} : ∀ {es : List TRWEntry},
    (∀ e ∈ es, e.val = C) → sumXv es = C * sumDt es := by
  intro es
  induction es with
  | nil => intro _; simp [sumXv, sumDt]
  | cons e rest ih =>
    intro h
    rw [sumXv_cons, sumDt_cons, ih (fun a ha => h a (List.mem_cons_of_mem _ ha)),
      h e (List.mem_cons_self _ _)]
    ring

lemma sumXv2_const {C : ℚ} : ∀ {es : List TRWEntry},
    (∀ e ∈ es, e.val = C) → sumXv2 es = C * C * sumDt es := by
  intro es
  induction es with
  | nil => intro _; simp [sumXv2, sumDt]
  | cons e rest ih =>
    intro h
    rw [sumXv2_cons, sumDt_cons, ih (fun a ha => h a (List.mem_cons_of_mem _ ha)),
      h e (List.mem_cons_self _ _)]
    ring

lemma trwRunConst_inv (C : ℚ) : ∀ (tds : List (ℚ × ℚ)) (s : TRWState),
    TRWWf s → (∀ e ∈ s.entries, e.val = C) →
    (∀ td ∈ tds, td.2 ≤ 0 ∨ eps12 < td.2) →
    TRWWf (trwRunConst s C tds) ∧
      (∀ e ∈ (trwRunConst s C tds).entries, e.val = C) ∧
      (tds ≠ [] → eps12 < (trwRunConst s C tds).sum_w) := by
  intro tds
  induction tds with
  | nil =>
    intro s hwf hvals _
    exact ⟨hwf, hvals, fun h => absurd rfl h⟩
  | cons td rest ih =>
    intro s hwf hvals hdts
    obtain ⟨hwf', hwpos', hvals'⟩ :=
      trwAppendF_wf s td.1 C td.2 hwf (hdts td (List.mem_cons_self _ _))
    set s' := trwAppendF s (some td.1) (some C) (some td.2) with hs'
    have hvalsC : ∀ e ∈ s'.entries, e.val = C := by
      intro e he
      rcases hvals' e he with h | ⟨e', he', hv⟩
      · exact h
      · exact hv ▸ hvals e' he'
    have hrun : trwRunConst s C (td :: rest) = trwRunConst s' C rest := rfl
    obtain ⟨k1, k2, k3⟩ := ih s' hwf' hvalsC
      (fun a ha => hdts a (List.mem_cons_of_mem _ ha))
    refine ⟨hrun ▸ k1, hrun ▸ k2, fun _ => ?_⟩
    rw [hrun]
    rcases List.eq_nil_or_concat rest with rfl | _
    · exact hwpos'
    · rcases eq_or_ne rest [] with rfl | hne
      · exact hwpos'
      · exact k3 hne

lemma trwStats_const (s : TRWState) (C : ℚ) (hwf : TRWWf s)
    (hvals : ∀ e ∈ s.entries, e.val = C) (hw : eps12 < s.sum_w) :
    trwStats s = (some (C : ℝ), some 0) := by
  obtain ⟨hnn, hsw, hsx, hsx2, _⟩ := hwf
  have heps : (0 : ℚ) < eps12 := by norm_num [eps12]
  have hw0 : s.sum_w ≠ 0 := ne_of_gt (lt_trans heps hw)
  have hx : s.sum_x = C * s.sum_w := by rw [hsx, hsw]; exact sumXv_const hvals
  have hx2 : s.sum_x2 = C * C * s.sum_w := by
    rw [hsx2, hsw]; exact sumXv2_const hvals
  have hmean : s.sum_x / s.sum_w = C := by rw [hx]; field_simp
  have hq2 : s.sum_x2 / s.sum_w = C * C := by rw [hx2]; field_simp
  unfold trwStats
  rw [if_neg (not_le.2 hw)]
  simp [hmean, hq2, Real.sqrt_zero]

/-- C8 (amended): with strictly increasing timestamps, constant value
`C`, and every `dt` argument either non-positive (clamped to `MIN_DT`
by the source) or larger than the `1e-12` weight guard, `stats()`
returns exactly `mean = C` and `std = 0` (hence within `1e-9`) after
every append, across any partial trims.  A positive `dt ≤ 1e-12` is
excluded: it can leave the running weight at or below the guard, in
which case `stats()` returns `(NaN, NaN)` — see the counterexample. -/
theorem trw_const_appends_stats (L C : ℚ) (hL : 0 < L)
    (tds : List (ℚ × ℚ))
    (_hmono : List.Chain' (fun a b : ℚ × ℚ => a.1 < b.1) tds)
    (hdts : ∀ td ∈ tds, td.2 ≤ 0 ∨ eps12 < td.2) (hne : tds ≠ []) :
    trwStats (trwRunConst (trwInit L) C tds) = (some (C : ℝ), some 0) := by
  obtain ⟨k1, k2, k3⟩ :=
    trwRunConst_inv C tds (trwInit L) (trwInit_wf hL) (by simp [trwInit]) hdts
  exact trwStats_const _ C k1 k2 (k3 hne)

/-- Counterexample to C8 as stated: a single append with the positive
weight `dt = 1e-13 > 0` ages the first sample by a positive amount, yet
`stats()` returns `(NaN, NaN)` (the epsilon clamp zeroes the running
sums because the total weight is below `1e-12`), not `mean = C`,
`std = 0`. -/
theorem trw_const_tiny_dt_nan :
    trwStats (trwRunConst (trwInit 60) 5 [((0 : ℚ), 1 / 10 ^ 13)]) =
        (none, none) ∧
      ((none, none) : FVal ℝ × FVal ℝ) ≠ (some ((5 : ℚ) : ℝ), some 0) := by
  constructor
  · norm_num [trwRunConst, trwAppendF, trwTrim, trwTrimGo, trwStats,
      trwInit, eps12, minDt, abs_of_nonneg]
  · intro h
    exact Option.noConfusion (congrArg Prod.fst h)

/-- Witness for C8 (amended) at a concrete two-append run. -/
theorem trw_const_appends_stats_witness :
    trwStats (trwRunConst (trwInit 1) 5 [((0 : ℚ), (0 : ℚ)), (1, 0)]) =
      (some ((5 : ℚ) : ℝ), some 0) :=
  trw_const_appends_stats 1 5 (by simp) [((0 : ℚ), (0 : ℚ)), (1, 0)]
    (by simp) (by simp) (by simp)

/-! ### Z-score metric (`_session_metric.pyx`, `ZScoreMetric`) -/

/-- Unfolding of `stats` on a window whose running weight is above the
`1e-12` guard. -/
lemma trwStats_of_pos (s : TRWState) (h : eps12 < s.sum_w) :
    trwStats s = (some ((s.sum_x / s.sum_w : ℚ) : ℝ),
      some (Real.sqrt
        (((if 0 < s.sum_x2 / s.sum_w - s.sum_x / s.sum_w * (s.sum_x / s.sum_w)
            then s.sum_x2 / s.sum_w - s.sum_x / s.sum_w * (s.sum_x / s.sum_w)
            else 0 : ℚ)) : ℝ))) := by
  unfold trwStats
  rw [if_neg (not_le.2 h)]

/-- State of `ZScoreMetric`: the rolling window and the two result
fields, plus the previous-timestamp bookkeeping. -/
structure ZScoreState where
  window : TRWState
  z : FVal ℝ
  resid : FVal ℝ
  last_ts : ℚ
  has_last : Bool

/-- `ZScoreMetric.__init__` (`lookback > 0` is validated there). -/
def zscoreInit (lookback : ℚ) : ZScoreState :=
  ⟨trwInit lookback, none, none, 0, false⟩

/-- The `dt` weight `ZScoreMetric.update_from_struct` hands to the
window: elapsed time clamped below by `1e-6`, or `0` on the first
tick. -/
def zscoreDt (s : ZScoreState) (t : ℚ) : ℚ :=
  if s.has_last then
    (if t - s.last_ts < 1 / 10 ^ 6 then 1 / 10 ^ 6 else t - s.last_ts)
  else 0

/-- `ZScoreMetric.update_from_struct`: append `(t, mid, dt)` to the
window, then set `rolling_residual = mid − mean` (NaN when the mean is
not finite) and `z_score = (mid − mean)/std`, with `z_score = 0` when
the std is not finite or is `≤ 1e-12`. -/
noncomputable def zscoreUpdate (s : ZScoreState) (t : ℚ) (mid : FVal ℚ) :
    ZScoreState :=
  let w := trwAppendF s.window (some t) mid (some (zscoreDt s t))
  let ms := trwStats w
  let midR : FVal ℝ := mid.map (fun q => (q : ℝ))
  ⟨w,
    (match ms.2 with
      | none => some 0
      | some sd =>
        if sd ≤ ((eps12 : ℚ) : ℝ) then some 0
        else fdiv (fsub midR ms.1) (some sd)),
    (if isfiniteB ms.1 then fsub midR ms.1 else none), t, true⟩

/-- Counterexample to C4 as stated: updating a fresh `ZScoreMetric`
with a tick whose mid is NaN leaves the window without finite stats
(the non-finite append is skipped, so the window has zero weight), yet
`z_score` is `0`, not NaN — only `rolling_residual` is NaN. -/
theorem zscore_zero_weight_z_is_zero :
    trwStats (zscoreUpdate (zscoreInit 60) 0 none).window = (none, none) ∧
      (zscoreUpdate (zscoreInit 60) 0 none).z = some 0 ∧
      (zscoreUpdate (zscoreInit 60) 0 none).resid = none ∧
      (some (0 : ℝ) : FVal ℝ) ≠ none := by
  have happ : trwAppendF (trwInit 60) (some 0) none
      (some (zscoreDt (zscoreInit 60) 0)) = trwInit 60 := rfl
  have hstats : trwStats (trwInit 60) = (none, none) := by
    unfold trwStats
    rw [if_pos (by norm_num [trwInit, eps12])]
  refine ⟨?_, ?_, ?_, by simp⟩
  · show trwStats (trwAppendF (trwInit 60) (some 0) none
      (some (zscoreDt (zscoreInit 60) 0))) = (none, none)
    rw [happ, hstats]
  · show (match (trwStats (trwAppendF (trwInit 60) (some 0) none
        (some (zscoreDt (zscoreInit 60) 0)))).2 with
      | none => some 0
      | some sd =>
        if sd ≤ ((eps12 : ℚ) : ℝ) then some 0
        else fdiv (fsub (Option.map (fun q => (q : ℝ)) none)
          (trwStats (trwAppendF (trwInit 60) (some 0) none
            (some (zscoreDt (zscoreInit 60) 0)))).1) (some sd)) = some 0
    rw [happ, hstats]
  · show (if isfiniteB (trwStats (trwAppendF (trwInit 60) (some 0) none
        (some (zscoreDt (zscoreInit 60) 0)))).1 then
          fsub (Option.map (fun q => (q : ℝ)) none)
            (trwStats (trwAppendF (trwInit 60) (some 0) none
              (some (zscoreDt (zscoreInit 60) 0)))).1
        else none) = none
    rw [happ, hstats]
    simp [isfiniteB]

/-- C4 (amended): after a `ZScoreMetric` update on a finite tick over a
well-formed window, the window always has finite stats `(mean, std)`,
`rolling_residual = mid − mean`, `z_score = (mid − mean)/std` when
`std > 1e-12` and `z_score = 0` when `std ≤ 1e-12`; and whenever the
window lacks finite stats after an update (possible only via
non-finite inputs), `rolling_residual` is NaN but `z_score` is `0`
(not NaN as the claim states). -/
theorem zscore_update_fields :
    (∀ (s : ZScoreState) (t mu : ℚ), TRWWf s.window →
      ∃ m sd : ℝ,
        trwStats (zscoreUpdate s t (some mu)).window = (some m, some sd) ∧
          (zscoreUpdate s t (some mu)).resid = some ((mu : ℝ) - m) ∧
          (sd ≤ ((eps12 : ℚ) : ℝ) →
            (zscoreUpdate s t (some mu)).z = some 0) ∧
          (((eps12 : ℚ) : ℝ) < sd →
            (zscoreUpdate s t (some mu)).z = some (((mu : ℝ) - m) / sd))) ∧
      (∀ (s : ZScoreState) (t : ℚ) (mid : FVal ℚ),
        trwStats (zscoreUpdate s t mid).window = (none, none) →
        (zscoreUpdate s t mid).resid = none ∧
          (zscoreUpdate s t mid).z = some 0) := by
  constructor
  · intro s t mu hwf
    have hdt : zscoreDt s t ≤ 0 ∨ eps12 < zscoreDt s t := by
      unfold zscoreDt
      by_cases h : s.has_last = true
      · rw [if_pos h]
        right
        by_cases h2 : t - s.last_ts < 1 / 10 ^ 6
        · rw [if_pos h2]; norm_num [eps12]
        · rw [if_neg h2]
          have := not_lt.1 h2
          norm_num [eps12] at this ⊢
          linarith
      · rw [if_neg h]
        exact Or.inl le_rfl
    obtain ⟨-, hwpos, -⟩ := trwAppendF_wf s.window t mu (zscoreDt s t) hwf hdt
    set w := trwAppendF s.window (some t) (some mu) (some (zscoreDt s t))
      with hwdef
    have hstats := trwStats_of_pos w hwpos
    refine ⟨((w.sum_x / w.sum_w : ℚ) : ℝ),
      Real.sqrt (((if 0 < w.sum_x2 / w.sum_w - w.sum_x / w.sum_w *
        (w.sum_x / w.sum_w)
        then w.sum_x2 / w.sum_w - w.sum_x / w.sum_w * (w.sum_x / w.sum_w)
        else 0 : ℚ)) : ℝ), ?_, ?_, ?_, ?_⟩
    · exact hstats
    · show (if isfiniteB (trwStats w).1 then
          fsub (Option.map (fun q => (q : ℝ)) (some mu)) (trwStats w).1
        else none) = _
      rw [hstats]
      simp [isfiniteB, fsub]
    · intro hsd
      show (match (trwStats w).2 with
        | none => some 0
        | some sd =>
          if sd ≤ ((eps12 : ℚ) : ℝ) then some 0
          else fdiv (fsub (Option.map (fun q => (q : ℝ)) (some mu))
            (trwStats w).1) (some sd)) = some 0
      rw [hstats]
      simp only [Option.map_some]
      rw [if_pos hsd]
    · intro hsd
      have hsd0 : Real.sqrt (((if 0 < w.sum_x2 / w.sum_w -
          w.sum_x / w.sum_w * (w.sum_x / w.sum_w)
          then w.sum_x2 / w.sum_w - w.sum_x / w.sum_w * (w.sum_x / w.sum_w)
          else 0 : ℚ)) : ℝ) ≠ 0 := by
        intro h0
        rw [h0] at hsd
        have : ((0 : ℚ) : ℝ) < ((eps12 : ℚ) : ℝ) := by
          norm_num [eps12]
        simp at this hsd
        linarith
      show (match (trwStats w).2 with
        | none => some 0
        | some sd =>
          if sd ≤ ((eps12 : ℚ) : ℝ) then some 0
          else fdiv (fsub (Option.map (fun q => (q : ℝ)) (some mu))
            (trwStats w).1) (some sd)) = _
      rw [hstats]
      simp only [Option.map_some]
      rw [if_neg (not_le.2 hsd)]
      simp only [fsub, fdiv, Option.map_id', Option.map_some']
      rw [if_neg hsd0]
  · intro s t mid h
    constructor
    · show (if isfiniteB (trwStats ((zscoreUpdate s t mid).window)).1 then
          fsub (Option.map (fun q => (q : ℝ)) mid)
            (trwStats ((zscoreUpdate s t mid).window)).1
        else none) = none
      rw [h]
      simp [isfiniteB]
    · show (match (trwStats ((zscoreUpdate s t mid).window)).2 with
        | none => some 0
        | some sd =>
          if sd ≤ ((eps12 : ℚ) : ℝ) then some 0
          else fdiv (fsub (Option.map (fun q => (q : ℝ)) mid)
            (trwStats ((zscoreUpdate s t mid).window)).1) (some sd)) = some 0
      rw [h]

/-- Witness for C4 (amended) at a fresh z-score metric and the finite
tick `(t = 0, mid = 3)`, and at the NaN tick for the degenerate
clause. -/
theorem zscore_update_fields_witness :
    (∃ m sd : ℝ,
      trwStats (zscoreUpdate (zscoreInit 1) 0 (some 3)).window =
          (some m, some sd) ∧
        (zscoreUpdate (zscoreInit 1) 0 (some 3)).resid =
          some (((3 : ℚ) : ℝ) - m) ∧
        (sd ≤ ((eps12 : ℚ) : ℝ) →
          (zscoreUpdate (zscoreInit 1) 0 (some 3)).z = some 0) ∧
        (((eps12 : ℚ) : ℝ) < sd →
          (zscoreUpdate (zscoreInit 1) 0 (some 3)).z =
            some ((((3 : ℚ) : ℝ) - m) / sd))) ∧
      ((zscoreUpdate (zscoreInit 60) 0 none).resid = none ∧
        (zscoreUpdate (zscoreInit 60) 0 none).z = some 0) :=
  ⟨zscore_update_fields.1 (zscoreInit 1) 0 3 (trwInit_wf zero_lt_one),
   zscore_update_fields.2 (zscoreInit 60) 0 none
     (by rw [show (zscoreUpdate (zscoreInit 60) 0 none).window = trwInit 60
          from rfl]
         unfold trwStats
         rw [if_pos (by simp [trwInit, eps12])])⟩

/-! ### EWMA primitive (`_base_metric.pyx`, `EWMA`)

The continuous-time exponential smoother.  Real arithmetic with
`Real.exp` models the double arithmetic with libc `exp`. -/

/-- State of `EWMA`: `tau`, `power`, the smoothed value `y` and the
previous-timestamp bookkeeping.  The constructor asserts
`tau > 0` and `power ∈ {1, 2}`. -/
structure EwmaState where
  tau : ℝ
  power : ℕ
  y : ℝ
  last_t : ℝ
  has_last : Bool

/-- `EWMA.update`: the first call only seeds `_last_t`; later calls
clamp `dt = t − t_prev` below by `MIN_DT = 1e-9`, set
`decay = exp(−dt/τ)` and blend `y ← decay·y + (1−decay)·value` with
`value = x` for power 1 and `x²` for power 2. -/
noncomputable def ewmaUpdate (s : EwmaState) (t x : ℝ) : EwmaState :=
  if ¬ s.has_last then { s with last_t := t, has_last := true }
  else
    let dt0 := t - s.last_t
    let dt := if dt0 ≤ 1 / 10 ^ 9 then 1 / 10 ^ 9 else dt0
    let decay := Real.exp (-dt / s.tau)
    let value := if s.power = 2 then x * x else x
    { s with y := decay * s.y + (1 - decay) * value, last_t := t }

/-- The list of EWMA states along a run (initial state included). -/
noncomputable def ewmaScan (s : EwmaState) (C : ℝ) : List ℝ → List EwmaState
  | [] => [s]
  | t :: ts => s :: ewmaScan (ewmaUpdate s t C) C ts

lemma ewma_const_step (s : EwmaState) (C t : ℝ) (hp : s.power = 1)
    (htau : 0 < s.tau) (hl : s.has_last = true) :
    |(ewmaUpdate s t C).y - C| ≤ |s.y - C| ∧
      |(ewmaUpdate s t C).y - C| ≤
        |s.y - C| * Real.exp (-(t - s.last_t) / s.tau) ∧
      (ewmaUpdate s t C).last_t = t ∧
      (ewmaUpdate s t C).has_last = true ∧
      (ewmaUpdate s t C).power = 1 ∧ (ewmaUpdate s t C).tau = s.tau := by
  have hcond : ¬ (¬ s.has_last = true) := by rw [hl]; simp
  set dt0 : ℝ := t - s.last_t with hdt0
  set dt : ℝ := if dt0 ≤ 1 / 10 ^ 9 then 1 / 10 ^ 9 else dt0 with hdt
  set decay : ℝ := Real.exp (-dt / s.tau) with hdecay
  have hupd : ewmaUpdate s t C =
      { s with
        y := decay * s.y + (1 - decay) * (if s.power = 2 then C * C else C),
        last_t := t } := by
    unfold ewmaUpdate
    rw [if_neg hcond]
  have hval : (if s.power = 2 then C * C else C) = C := by
    rw [hp]; simp
  have hdtpos : 0 < dt := by
    rw [hdt]
    by_cases h : dt0 ≤ 1 / 10 ^ 9
    · rw [if_pos h]; norm_num
    · rw [if_neg h]
      have := not_le.1 h
      nlinarith
  have hdtge : dt0 ≤ dt := by
    rw [hdt]
    by_cases h : dt0 ≤ 1 / 10 ^ 9
    · rw [if_pos h]; exact h
    · rw [if_neg h]
  have hdecay1 : decay ≤ 1 := by
    rw [hdecay, show (1 : ℝ) = Real.exp 0 from (Real.exp_zero).symm]
    apply Real.exp_le_exp.2
    apply div_nonpos_of_nonpos_of_nonneg
    · linarith
    · exact le_of_lt htau
  have hdecaypos : 0 < decay := Real.exp_pos _
  have hdecayle : decay ≤ Real.exp (-dt0 / s.tau) := by
    rw [hdecay]
    apply Real.exp_le_exp.2
    apply div_le_div_of_nonneg_right _ htau.le
    linarith
  have hy : (ewmaUpdate s t C).y - C = decay * (s.y - C) := by
    rw [hupd]
    simp only [hval]
    ring
  have habs : |(ewmaUpdate s t C).y - C| = decay * |s.y - C| := by
    rw [hy, abs_mul, abs_of_pos hdecaypos]
  refine ⟨?_, ?_, by rw [hupd], by rw [hupd]; exact hl, by rw [hupd]; exact hp,
    by rw [hupd]⟩
  · rw [habs]
    calc decay * |s.y - C| ≤ 1 * |s.y - C| :=
          mul_le_mul_of_nonneg_right hdecay1 (abs_nonneg _)
      _ = |s.y - C| := one_mul _
  · rw [habs, mul_comm]
    exact mul_le_mul_of_nonneg_left hdecayle (abs_nonneg _)

lemma ewma_scan_facts (C : ℝ) : ∀ (times : List ℝ) (s : EwmaState),
    s.power = 1 → s.has_last = true → 0 < s.tau →
    List.Chain' (fun a b => b ≤ a)
      ((ewmaScan s C times).map (fun st => |st.y - C|)) ∧
      (∀ st ∈ ewmaScan s C times,
        |st.y - C| ≤ |s.y - C| * Real.exp (-(st.last_t - s.last_t) / s.tau)) := by
  intro times
  induction times with
  | nil =>
    intro s _ _ _
    refine ⟨by simp [ewmaScan], ?_⟩
    intro st hst
    rcases List.mem_singleton.1 hst with rfl
    simp [Real.exp_zero]
  | cons t ts ih =>
    intro s hp hl htau
    obtain ⟨h1, h2, h3, h4, h5, h6⟩ := ewma_const_step s C t hp htau hl
    set s' := ewmaUpdate s t C with hs'
    obtain ⟨ihc, ihm⟩ := ih s' h5 h4 (h6 ▸ htau)
    have hscan : ewmaScan s C (t :: ts) = s :: ewmaScan s' C ts := rfl
    constructor
    · rw [hscan, List.map_cons]
      have hhead : ∃ rest, ewmaScan s' C ts = s' :: rest := by
        cases ts with
        | nil => exact ⟨[], rfl⟩
        | cons a l => exact ⟨ewmaScan (ewmaUpdate s' a C) C l, rfl⟩
      obtain ⟨rest, hrest⟩ := hhead
      rw [hrest, List.map_cons]
      rw [hrest, List.map_cons] at ihc
      exact List.Chain'.cons h1 ihc
    · intro st hst
      rw [hscan] at hst
      rcases List.mem_cons.1 hst with rfl | hst
      · simp [Real.exp_zero]
      · have hb := ihm st hst
        have hcomb : |s'.y - C| * Real.exp (-(st.last_t - s'.last_t) / s'.tau) ≤
            (|s.y - C| * Real.exp (-(t - s.last_t) / s.tau)) *
              Real.exp (-(st.last_t - s'.last_t) / s'.tau) :=
          mul_le_mul_of_nonneg_right h2 (le_of_lt (Real.exp_pos _))
        have hexp : Real.exp (-(t - s.last_t) / s.tau) *
            Real.exp (-(st.last_t - s'.last_t) / s'.tau) =
            Real.exp (-(st.last_t - s.last_t) / s.tau) := by
          rw [h6, h3, ← Real.exp_add]
          congr 1
          field_simp
        calc |st.y - C| ≤ |s'.y - C| *
              Real.exp (-(st.last_t - s'.last_t) / s'.tau) := hb
          _ ≤ |s.y - C| * Real.exp (-(t - s.last_t) / s.tau) *
              Real.exp (-(st.last_t - s'.last_t) / s'.tau) := hcomb
          _ = |s.y - C| * Real.exp (-(st.last_t - s.last_t) / s.tau) := by
              rw [mul_assoc, hexp]

/-- C5: an EWMA with `tau > 0`, power 1, seeded at `t0` with smoothed
value `y0`, fed the constant input `C` at (strictly increasing) times:
after each update the distance `|y − C|` never increases, and every
state along the run satisfies
`|y − C| ≤ |y0 − C| · exp(−(t − t0)/τ)`, where `t − t0` is the sum of
the inter-update intervals since the seeding update.  (The `MIN_DT`
clamp only shrinks `decay`, so the bound holds with the exact elapsed
time.) -/
theorem ewma_const_convergence (tau y0 t0 C : ℝ) (htau : 0 < tau)
    (times : List ℝ) (_hmono : List.Chain' (· < ·) (t0 :: times)) :
    List.Chain' (fun a b => b ≤ a)
      ((ewmaScan ⟨tau, 1, y0, t0, true⟩ C times).map (fun st => |st.y - C|)) ∧
      (∀ st ∈ ewmaScan ⟨tau, 1, y0, t0, true⟩ C times,
        |st.y - C| ≤ |y0 - C| * Real.exp (-(st.last_t - t0) / tau)) :=
  ewma_scan_facts C times ⟨tau, 1, y0, t0, true⟩ rfl rfl htau

/-- Witness for C5: one update at `t = 1` from seeding at `t0 = 0`. -/
theorem ewma_const_convergence_witness :
    List.Chain' (fun a b => b ≤ a)
      ((ewmaScan ⟨1, 1, 1, 0, true⟩ 0 [1]).map (fun st => |st.y - 0|)) ∧
      (∀ st ∈ ewmaScan ⟨1, 1, 1, 0, true⟩ 0 [1],
        |st.y - 0| ≤ |1 - 0| * Real.exp (-(st.last_t - 0) / 1)) :=
  ewma_const_convergence 1 1 0 0 zero_lt_one [1] (by simp)

/-! ### Monotonic min/max queue (`_MonotonicQueue`, unnamed source)

The ring buffer is a list of `(timestamp, price)` pairs, head first.
`is_max` selects the max-queue (`True`) or min-queue (`False`)
behaviour, exactly as the `is_max` flag in the source. -/

/-- The pop condition of `_MonotonicQueue.append`: the tail entry is
popped while its price is `≤ p` (max queue) or `≥ p` (min queue). -/
def mqTailCond (isMax : Bool) (p : ℚ) (e : ℚ × ℚ) : Bool :=
  if isMax then decide (e.2 ≤ p) else decide (p ≤ e.2)

/-- `_MonotonicQueue.append`: pop tail entries satisfying the pop
condition, then push `(t, p)` at the tail. -/
def mqAppend (isMax : Bool) (q : List (ℚ × ℚ)) (t p : ℚ) : List (ℚ × ℚ) :=
  (q.reverse.dropWhile (mqTailCond isMax p)).reverse ++ [(t, p)]

/-- `_MonotonicQueue.trim`: pop head entries with timestamp `< cutoff`.
(The source's head-index reset on emptiness has no observable
effect.) -/
def mqTrim (q : List (ℚ × ℚ)) (cutoff : ℚ) : List (ℚ × ℚ) :=
  q.dropWhile (fun e => decide (e.1 < cutoff))

/-- "At least as extreme": `b ≤ a` for the max queue, `a ≤ b` for the
min queue. -/
def better (isMax : Bool) (a b : ℚ) : Prop :=
  if isMax then b ≤ a else a ≤ b

lemma better_refl (isMax : Bool) (a : ℚ) : better isMax a a := by
  cases isMax <;> simp [better]

lemma better_trans {isMax : Bool} {a b c : ℚ}
    (h1 : better isMax a b) (h2 : better isMax b c) : better isMax a c := by
  cases isMax <;> simp [better] at * <;> linarith

lemma mqTailCond_better {isMax : Bool} {p : ℚ} {d : ℚ × ℚ}
    (h : mqTailCond isMax p d = true) : better isMax p d.2 := by
  cases isMax <;> simpa [mqTailCond, better] using h

lemma dropWhile_head_not {α : Type} (p : α → Bool) :
    ∀ (l : List α) {h : α} {rest : List α},
      l.dropWhile p = h :: rest → p h = false := by
  intro l
  induction l with
  | nil => intro h rest hcon; simp [List.dropWhile] at hcon
  | cons a l ih =>
    intro h rest hcon
    rw [List.dropWhile_cons] at hcon
    by_cases hpa : p a = true
    · rw [if_pos hpa] at hcon
      exact ih hcon
    · rw [if_neg hpa] at hcon
      obtain ⟨rfl, rfl⟩ := hcon
      simpa using hpa

lemma chain'_head_rel {α : Type} {R : α → α → Prop}
    (htrans : ∀ a b c, R a b → R b c → R a c) :
    ∀ {h : α} {rest : List α}, List.Chain' R (h :: rest) →
      ∀ e ∈ rest, R h e := by
  intro h rest
  induction rest generalizing h with
  | nil => intro _ e he; cases he
  | cons a l ih =>
    intro hc e he
    have h1 : R h a := (List.chain'_cons.1 hc).1
    rcases List.mem_cons.1 he with rfl | he
    · exact h1
    · exact htrans _ _ _ h1 (ih (List.chain'_cons.1 hc).2 e he)

/-- An operation on the queue. -/
inductive MQOp where
  | append (t p : ℚ)
  | trim (cutoff : ℚ)

/-- Queue contents together with the run bookkeeping the claim speaks
about: the multiset of appended entries, the latest appended timestamp
and the largest cutoff trimmed so far. -/
structure MQRun where
  q : List (ℚ × ℚ)
  appended : List (ℚ × ℚ)
  now : Option ℚ
  cutoff : Option ℚ

/-- One step of the queue together with the bookkeeping. -/
def mqStep (isMax : Bool) (st : MQRun) : MQOp → MQRun
  | .append t p =>
    ⟨mqAppend isMax st.q t p, st.appended ++ [(t, p)], some t, st.cutoff⟩
  | .trim c =>
    ⟨mqTrim st.q c, st.appended, st.now,
      some (match st.cutoff with | none => c | some c0 => max c0 c)⟩

/-- A whole run from the empty queue. -/
def mqRun (isMax : Bool) (ops : List MQOp) : MQRun :=
  ops.foldl (mqStep isMax) ⟨[], [], none, none⟩

/-- Validity of an operation sequence given the latest appended
timestamp so far: appends carry non-decreasing timestamps and every
trim cutoff is `≤` the latest appended timestamp. -/
def MQValid : Option ℚ → List MQOp → Prop
  | _, [] => True
  | now, .append t _ :: rest =>
    (∀ n, now = some n → n ≤ t) ∧ MQValid (some t) rest
  | now, .trim c :: rest =>
    (∃ n, now = some n ∧ c ≤ n) ∧ MQValid now rest

/-- The inductive invariant of the monotonic queue run. -/
structure MQInv (isMax : Bool) (st : MQRun) : Prop where
  times : List.Chain' (fun a b : ℚ × ℚ => a.1 ≤ b.1) st.q
  prices : List.Chain' (fun a b : ℚ × ℚ => better isMax a.2 b.2) st.q
  inQ : ∀ e ∈ st.q, (∀ c, st.cutoff = some c → c ≤ e.1) ∧
    (∀ n, st.now = some n → e.1 ≤ n)
  dom : ∀ e ∈ st.appended, (∀ c, st.cutoff = some c → c ≤ e.1) →
    ∃ d ∈ st.q, e.1 ≤ d.1 ∧ better isMax d.2 e.2
  sub : ∀ e ∈ st.q, e ∈ st.appended
  appLe : ∀ e ∈ st.appended, ∀ n, st.now = some n → e.1 ≤ n
  noneEmpty : st.now = none → st.appended = [] ∧ st.q = []
  cutLe : ∀ c, st.cutoff = some c → ∃ n, st.now = some n ∧ c ≤ n

lemma mqInv_init (isMax : Bool) : MQInv isMax ⟨[], [], none, none⟩ := by
  constructor <;> simp

lemma mqTailCond_false_better {isMax : Bool} {p : ℚ} {d : ℚ × ℚ}
    (h : mqTailCond isMax p d = false) : better isMax d.2 p := by
  cases isMax <;> simp [mqTailCond, better] at h ⊢ <;> linarith

lemma mqInv_append (isMax : Bool) (st : MQRun) (t p : ℚ)
    (hinv : MQInv isMax st) (hnow : ∀ n, st.now = some n → n ≤ t) :
    MQInv isMax
      ⟨mqAppend isMax st.q t p, st.appended ++ [(t, p)], some t, st.cutoff⟩ := by
  obtain ⟨htimes, hprices, hinQ, hdom, hsub, happLe, hnoneEmpty, hcutLe⟩ := hinv
  set kept := (st.q.reverse.dropWhile (mqTailCond isMax p)).reverse with hkept
  set dropped := (st.q.reverse.takeWhile (mqTailCond isMax p)).reverse
    with hdropped
  have hsplit : st.q = kept ++ dropped := by
    rw [hkept, hdropped, ← List.reverse_append,
      List.takeWhile_append_dropWhile, List.reverse_reverse]
  have hdropped_cond : ∀ d ∈ dropped, mqTailCond isMax p d = true := by
    intro d hd
    rw [hdropped, List.mem_reverse] at hd
    exact List.mem_takeWhile_imp hd
  have hkept_sub : ∀ e ∈ kept, e ∈ st.q := by
    intro e he
    rw [hsplit]
    exact List.mem_append_left _ he
  have hq' : mqAppend isMax st.q t p = kept ++ [(t, p)] := rfl
  have hkept_chain_t : List.Chain' (fun a b : ℚ × ℚ => a.1 ≤ b.1) kept :=
    htimes.prefix ⟨dropped, hsplit.symm⟩
  have hkept_chain_p :
      List.Chain' (fun a b : ℚ × ℚ => better isMax a.2 b.2) kept :=
    hprices.prefix ⟨dropped, hsplit.symm⟩
  have hq_le_t : ∀ e ∈ st.q, e.1 ≤ t := by
    intro e he
    cases hn : st.now with
    | none =>
      rw [(hnoneEmpty hn).2] at he
      cases he
    | some n => exact le_trans ((hinQ e he).2 n hn) (hnow n hn)
  refine ⟨?_, ?_, ?_, ?_, ?_, ?_, ?_, ?_⟩
  · -- timestamps non-decreasing
    show List.Chain' _ (mqAppend isMax st.q t p)
    rw [hq']
    apply List.chain'_append.2
    refine ⟨hkept_chain_t, List.chain'_singleton _, ?_⟩
    intro x hx y hy
    simp only [List.head?_cons, Option.mem_def, Option.some.injEq] at hy
    subst hy
    have hxk : x ∈ kept := List.mem_of_mem_getLast? hx
    exact hq_le_t x (hkept_sub x hxk)
  · -- prices monotone from head to tail
    show List.Chain' _ (mqAppend isMax st.q t p)
    rw [hq']
    apply List.chain'_append.2
    refine ⟨hkept_chain_p, List.chain'_singleton _, ?_⟩
    intro x hx y hy
    simp only [List.head?_cons, Option.mem_def, Option.some.injEq] at hy
    subst hy
    cases hdw : st.q.reverse.dropWhile (mqTailCond isMax p) with
    | nil =>
      rw [hkept, hdw] at hx
      simp at hx
    | cons h' tl =>
      have hxval : h' = x := by
        rw [hkept, hdw, List.reverse_cons, List.getLast?_concat] at hx
        simpa using hx
      rw [← hxval]
      exact mqTailCond_false_better (dropWhile_head_not _ _ hdw)
  · -- queue entries lie in the window
    intro e he
    rw [show (⟨mqAppend isMax st.q t p, st.appended ++ [(t, p)], some t,
      st.cutoff⟩ : MQRun).q = mqAppend isMax st.q t p from rfl, hq'] at he
    rcases List.mem_append.1 he with he | he
    · refine ⟨fun c hc => (hinQ e (hkept_sub e he)).1 c hc, ?_⟩
      intro n hn
      obtain ⟨rfl⟩ : n = t := by simpa using hn.symm
      exact hq_le_t e (hkept_sub e he)
    · rcases List.mem_singleton.1 he with rfl
      refine ⟨?_, ?_⟩
      · intro c hc
        obtain ⟨n, hn, hcn⟩ := hcutLe c hc
        exact le_trans hcn (hnow n hn)
      · intro n hn
        obtain ⟨rfl⟩ : n = t := by simpa using hn.symm
        exact le_refl _
  · -- every in-window appended entry is dominated
    intro e he hcut
    rcases List.mem_append.1 he with he | he
    · obtain ⟨d, hd, hed, hbet⟩ := hdom e he hcut
      rw [hsplit] at hd
      rcases List.mem_append.1 hd with hd | hd
      · exact ⟨d, by rw [hq']; exact List.mem_append_left _ hd, hed, hbet⟩
      · refine ⟨(t, p), by rw [hq']; simp, ?_, ?_⟩
        · exact le_trans hed (hq_le_t d (hsplit ▸ List.mem_append_right _ hd))
        · exact better_trans (mqTailCond_better (hdropped_cond d hd)) hbet
    · rcases List.mem_singleton.1 he with rfl
      exact ⟨(t, p), by rw [hq']; simp, le_refl _, better_refl _ _⟩
  · -- queue entries come from the appended multiset
    intro e he
    rw [show (⟨mqAppend isMax st.q t p, st.appended ++ [(t, p)], some t,
      st.cutoff⟩ : MQRun).q = mqAppend isMax st.q t p from rfl, hq'] at he
    rcases List.mem_append.1 he with he | he
    · exact List.mem_append_left _ (hsub e (hkept_sub e he))
    · exact List.mem_append_right _ he
  · -- appended timestamps bounded by now
    intro e he n hn
    obtain ⟨rfl⟩ : n = t := by simpa using hn.symm
    rcases List.mem_append.1 he with he | he
    · cases hm : st.now with
      | none =>
        rw [(hnoneEmpty hm).1] at he
        cases he
      | some m => exact le_trans (happLe e he m hm) (hnow m hm)
    · rcases List.mem_singleton.1 he with rfl
      exact le_refl _
  · -- now is defined after an append
    intro hcon
    exact Option.noConfusion hcon
  · -- the cutoff is at most now
    intro c hc
    obtain ⟨n, hn, hcn⟩ := hcutLe c hc
    exact ⟨t, rfl, le_trans hcn (hnow n hn)⟩

lemma mqInv_trim (isMax : Bool) (st : MQRun) (c : ℚ)
    (hinv : MQInv isMax st) (hc : ∃ n, st.now = some n ∧ c ≤ n) :
    MQInv isMax
      ⟨mqTrim st.q c, st.appended, st.now,
        some (match st.cutoff with | none => c | some c0 => max c0 c)⟩ := by
  obtain ⟨htimes, hprices, hinQ, hdom, hsub, happLe, hnoneEmpty, hcutLe⟩ := hinv
  obtain ⟨n, hn, hcn⟩ := hc
  set c' : ℚ := (match st.cutoff with | none => c | some c0 => max c0 c)
    with hc'
  have hcc' : c ≤ c' := by
    cases hcut : st.cutoff <;> simp [hc', hcut]
  have holdc : ∀ c0, st.cutoff = some c0 → c0 ≤ c' := by
    intro c0 h0
    simp [hc', h0]
  have hc'n : c' ≤ n := by
    cases hcut : st.cutoff with
    | none => simpa [hc', hcut] using hcn
    | some c0 =>
      obtain ⟨m, hm, hc0m⟩ := hcutLe c0 hcut
      obtain ⟨rfl⟩ : m = n := by rw [hm] at hn; simpa using hn
      simp only [hc', hcut]
      exact max_le hc0m hcn
  have hsplitT : st.q =
      st.q.takeWhile (fun e => decide (e.1 < c)) ++ mqTrim st.q c :=
    (List.takeWhile_append_dropWhile _ _).symm
  have hq'sub : ∀ e ∈ mqTrim st.q c, e ∈ st.q := by
    intro e he
    rw [hsplitT]
    exact List.mem_append_right _ he
  have hsuffix : (mqTrim st.q c).IsSuffix st.q :=
    ⟨st.q.takeWhile (fun e => decide (e.1 < c)), hsplitT.symm⟩
  have htimes' : List.Chain' (fun a b : ℚ × ℚ => a.1 ≤ b.1) (mqTrim st.q c) :=
    htimes.suffix hsuffix
  have hge : ∀ e ∈ mqTrim st.q c, c ≤ e.1 := by
    intro e he
    cases hdw : mqTrim st.q c with
    | nil => rw [hdw] at he; cases he
    | cons h' tl =>
      have hhead : ¬ h'.1 < c := by
        have := dropWhile_head_not (fun e : ℚ × ℚ => decide (e.1 < c))
          st.q hdw
        simpa using this
      rw [hdw] at he htimes'
      rcases List.mem_cons.1 he with rfl | he
      · exact not_lt.1 hhead
      · exact le_trans (not_lt.1 hhead)
          (chain'_head_rel (R := fun a b : ℚ × ℚ => a.1 ≤ b.1)
            (fun a b d h1 h2 => le_trans h1 h2) htimes' e he)
  refine ⟨htimes', hprices.suffix hsuffix, ?_, ?_, ?_, ?_, ?_, ?_⟩
  · intro e he
    refine ⟨?_, fun m hm => (hinQ e (hq'sub e he)).2 m hm⟩
    intro cc hcc
    obtain ⟨rfl⟩ : cc = c' := by simpa using hcc.symm
    cases hcut : st.cutoff with
    | none =>
      simp only [hc', hcut]
      exact hge e he
    | some c0 =>
      simp only [hc', hcut]
      exact max_le ((hinQ e (hq'sub e he)).1 c0 hcut) (hge e he)
  · intro e he hcut
    have hce : c' ≤ e.1 := hcut c' rfl
    have hcutold : ∀ c0, st.cutoff = some c0 → c0 ≤ e.1 :=
      fun c0 h0 => le_trans (holdc c0 h0) hce
    obtain ⟨d, hd, hed, hbet⟩ := hdom e he hcutold
    rw [hsplitT] at hd
    rcases List.mem_append.1 hd with hd | hd
    · exfalso
      have : d.1 < c := by simpa using List.mem_takeWhile_imp hd
      have : c ≤ d.1 := le_trans hcc' (le_trans hce hed)
      linarith
    · exact ⟨d, hd, hed, hbet⟩
  · exact fun e he => hsub e (hq'sub e he)
  · exact happLe
  · intro hcon
    rw [hn] at hcon
    cases hcon
  · intro cc hcc
    obtain ⟨rfl⟩ : cc = c' := by simpa using hcc.symm
    exact ⟨n, hn, hc'n⟩

lemma mqRun_inv (isMax : Bool) : ∀ (ops : List MQOp) (st : MQRun),
    MQInv isMax st → MQValid st.now ops →
    MQInv isMax (ops.foldl (mqStep isMax) st) := by
  intro ops
  induction ops with
  | nil => exact fun st h _ => h
  | cons op rest ih =>
    intro st h hval
    cases op with
    | append t p => exact ih _ (mqInv_append isMax st t p h hval.1) hval.2
    | trim c => exact ih _ (mqInv_trim isMax st c h hval.1) hval.2

/-- C3: for every valid interleaving of appends (non-decreasing
timestamps) and trims (cutoff at most the latest appended timestamp),
whenever the queue is non-empty its head price equals the extremum
(maximum for the max queue, minimum for the min queue) over all
appended prices whose timestamp lies in `[cutoff, now]`, where `cutoff`
is the largest cutoff trimmed so far and `now` the latest appended
timestamp: the head is itself such an appended entry, and it is at
least as extreme as every appended entry in the window. -/
theorem mq_head_extremum (isMax : Bool) (ops : List MQOp)
    (hval : MQValid none ops) (h : ℚ × ℚ) (rest : List (ℚ × ℚ))
    (hq : (mqRun isMax ops).q = h :: rest) :
    ∃ n, (mqRun isMax ops).now = some n ∧
      h ∈ (mqRun isMax ops).appended ∧
      (∀ c, (mqRun isMax ops).cutoff = some c → c ≤ h.1) ∧ h.1 ≤ n ∧
      ∀ e ∈ (mqRun isMax ops).appended,
        (∀ c, (mqRun isMax ops).cutoff = some c → c ≤ e.1) → e.1 ≤ n →
        better isMax h.2 e.2 := by
  have hinv : MQInv isMax (mqRun isMax ops) :=
    mqRun_inv isMax ops ⟨[], [], none, none⟩ (mqInv_init isMax) hval
  obtain ⟨htimes, hprices, hinQ, hdom, hsub, happLe, hnoneEmpty, hcutLe⟩ := hinv
  cases hn : (mqRun isMax ops).now with
  | none =>
    rw [(hnoneEmpty hn).2] at hq
    cases hq
  | some n =>
    have hhq : h ∈ (mqRun isMax ops).q := by
      rw [hq]
      exact List.mem_cons_self _ _
    refine ⟨n, rfl, hsub h hhq, (hinQ h hhq).1, (hinQ h hhq).2 n hn, ?_⟩
    intro e he hcut _
    obtain ⟨d, hd, _, hbet⟩ := hdom e he hcut
    have hhd : better isMax h.2 d.2 := by
      rw [hq] at hd hprices
      rcases List.mem_cons.1 hd with rfl | hd
      · exact better_refl _ _
      · exact chain'_head_rel (R := fun a b : ℚ × ℚ => better isMax a.2 b.2)
          (fun a b d h1 h2 => better_trans h1 h2) hprices d hd
    exact better_trans hhd hbet

/-- Witness for C3: max queue, appends at times 0 and 1, then a trim at
cutoff 1/2 that evicts the head. -/
theorem mq_head_extremum_witness :
    ∃ n, (mqRun true [MQOp.append 0 5, MQOp.append 1 3,
        MQOp.trim 1]).now = some n ∧
      ((1 : ℚ), (3 : ℚ)) ∈ (mqRun true [MQOp.append 0 5, MQOp.append 1 3,
        MQOp.trim 1]).appended ∧
      (∀ c, (mqRun true [MQOp.append 0 5, MQOp.append 1 3,
        MQOp.trim 1]).cutoff = some c → c ≤ ((1 : ℚ), (3 : ℚ)).1) ∧
      ((1 : ℚ), (3 : ℚ)).1 ≤ n ∧
      ∀ e ∈ (mqRun true [MQOp.append 0 5, MQOp.append 1 3,
          MQOp.trim 1]).appended,
        (∀ c, (mqRun true [MQOp.append 0 5, MQOp.append 1 3,
          MQOp.trim 1]).cutoff = some c → c ≤ e.1) → e.1 ≤ n →
        better true ((1 : ℚ), (3 : ℚ)).2 e.2 :=
  mq_head_extremum true [MQOp.append 0 5, MQOp.append 1 3, MQOp.trim 1]
    (by simp [MQValid]) ((1 : ℚ), (3 : ℚ)) [] rfl

/-! ### Threshold-reversion metric (`ThresholdReversionMetric`, unnamed
source)

Prices and timestamps are rationals; the NaN sentinels of the unset
reference/level fields are `none`. -/

/-- `_MonotonicQueue.find_candidate`: with fewer than two entries there
is no candidate; otherwise scan from the second-to-last entry backwards
for the first entry whose price differs from the current price by at
least `threshold` (direction chosen by `is_low`) and whose age is at
least `min_age`.  Returns the `(timestamp, price)` entry. -/
def mqFindCandidate (q : List (ℚ × ℚ)) (current threshold : ℚ)
    (isLow : Bool) (now minAge : ℚ) : Option (ℚ × ℚ) :=
  if q.length < 2 then none
  else
    (q.reverse.drop 1).find? fun e =>
      (if isLow then decide (threshold ≤ current - e.2)
       else decide (threshold ≤ e.2 - current)) &&
        decide (minAge ≤ now - e.1)

/-- State of `ThresholdReversionMetric` (construction-time parameters
first; `threshold = threshold_pips * pip_size`, `tp_distance =
tp_pips * pip_size`, `sl_distance = sl_pips * pip_size`). -/
structure TRMState where
  lookback : ℚ
  threshold : ℚ
  pip_size : ℚ
  tp_distance : ℚ
  sl_distance : ℚ
  min_recency : ℚ
  maxQ : List (ℚ × ℚ)
  minQ : List (ℚ × ℚ)
  p_ref : Option ℚ
  p_ref_time : Option ℚ
  position_open_time : Option ℚ
  tp_price : Option ℚ
  sl_price : Option ℚ
  last_mid : Option ℚ
  last_timestamp : Option ℚ
  has_ref : Bool
  has_last : Bool
  position : ℤ

/-- `ThresholdReversionMetric._append_tick`: append the mid to both
queues, then trim both at `timestamp − lookback_seconds`. -/
def trmAppendTick (s : TRMState) (t mid : ℚ) : TRMState :=
  { s with
    maxQ := mqTrim (mqAppend true s.maxQ t mid) (t - s.lookback),
    minQ := mqTrim (mqAppend false s.minQ t mid) (t - s.lookback) }

/-- `ThresholdReversionMetric._find_reference`: the newer of the
min-queue low candidate and the max-queue high candidate (the low wins
ties). -/
def trmFindReference (s : TRMState) (current now : ℚ) : Option (ℚ × ℚ) :=
  match mqFindCandidate s.minQ current s.threshold true now s.min_recency,
      mqFindCandidate s.maxQ current s.threshold false now s.min_recency with
  | some l, some h => if h.1 ≤ l.1 then some l else some h
  | some l, none => some l
  | none, some h => some h
  | none, none => none

/-- `ThresholdReversionMetric._flatten`. -/
def trmFlatten (s : TRMState) : TRMState :=
  { s with
    position := 0,
    has_ref := false,
    p_ref := none,
    p_ref_time := none,
    position_open_time := none,
    tp_price := none,
    sl_price := none }

/-- `ThresholdReversionMetric._maybe_open` (with `_set_reference` and
`_set_trade_levels` inlined as in the source's call sequence): open
short when `current − ref ≥ threshold`, long when
`current − ref ≤ −threshold`. -/
def trmMaybeOpen (s : TRMState) (refPrice refTime currentPrice now : ℚ) :
    TRMState :=
  let distance := currentPrice - refPrice
  if s.threshold ≤ distance then
    { s with
      p_ref := some refPrice,
      p_ref_time := some refTime,
      has_ref := true,
      position := -1,
      position_open_time := some now,
      tp_price := some (currentPrice - s.tp_distance),
      sl_price := some (currentPrice + s.sl_distance) }
  else if distance ≤ -s.threshold then
    { s with
      p_ref := some refPrice,
      p_ref_time := some refTime,
      has_ref := true,
      position := 1,
      position_open_time := some now,
      tp_price := some (currentPrice + s.tp_distance),
      sl_price := some (currentPrice - s.sl_distance) }
  else s

/-- The state after the queue append and the last-tick bookkeeping at
the top of `update_from_struct`. -/
def trmStage1 (s : TRMState) (t mid : ℚ) : TRMState :=
  { trmAppendTick s t mid with
    last_mid := some mid,
    last_timestamp := some t,
    has_last := true }

/-- `ThresholdReversionMetric.update_from_struct`: append and trim the
queues, search for a reference candidate, flatten and retry the search
when holding a position whose reference the mid has reverted to
(`|mid − p_ref| ≤ pip_size`), flatten when no candidate exists, flatten
when the candidate drifted from the held reference by more than
`pip_size/10`, and finally open a position when flat. -/
def trmUpdate (s : TRMState) (t mid : ℚ) : TRMState :=
  let s1 := trmStage1 s t mid
  let cand1 := trmFindReference s1 mid t
  let reverted := (decide (s1.position ≠ 0)) && s1.has_ref &&
    fleB (fabsF (fsub (some mid) s1.p_ref)) (some s1.pip_size)
  let s2 := if reverted then trmFlatten s1 else s1
  let cand2 := if reverted then trmFindReference s2 mid t else cand1
  match cand2 with
  | none => trmFlatten s2
  | some e =>
    let s3 := if s2.has_ref &&
        fltB (some (s2.pip_size / 10)) (fabsF (fsub (some e.2) s2.p_ref))
      then trmFlatten s2 else s2
    if s3.position = 0 then trmMaybeOpen s3 e.2 e.1 mid t else s3

lemma trmFindReference_flatten (s : TRMState) (c n : ℚ) :
    trmFindReference (trmFlatten s) c n = trmFindReference s c n := rfl

lemma trmMaybeOpen_spec (s : TRMState) (rp rt mid t : ℚ)
    (hthr : 0 < s.threshold) (hflat : s.position = 0) :
    ((trmMaybeOpen s rp rt mid t).position = -1 ↔ s.threshold ≤ mid - rp) ∧
      ((trmMaybeOpen s rp rt mid t).position = 1 ↔ s.threshold ≤ rp - mid) ∧
      ((trmMaybeOpen s rp rt mid t).position = -1 →
        (trmMaybeOpen s rp rt mid t).tp_price = some (mid - s.tp_distance) ∧
        (trmMaybeOpen s rp rt mid t).sl_price = some (mid + s.sl_distance)) ∧
      ((trmMaybeOpen s rp rt mid t).position = 1 →
        (trmMaybeOpen s rp rt mid t).tp_price = some (mid + s.tp_distance) ∧
        (trmMaybeOpen s rp rt mid t).sl_price = some (mid - s.sl_distance)) := by
  by_cases h1 : s.threshold ≤ mid - rp
  · have hno2 : ¬ s.threshold ≤ rp - mid := by intro h2; linarith
    simp only [trmMaybeOpen]
    rw [if_pos h1]
    refine ⟨by simp [h1], by simp [hno2], fun _ => ⟨rfl, rfl⟩, ?_⟩
    intro hcon
    simp at hcon
  · by_cases h2 : mid - rp ≤ -s.threshold
    · have h2' : s.threshold ≤ rp - mid := by linarith
      simp only [trmMaybeOpen]
      rw [if_neg h1, if_pos h2]
      refine ⟨by simp [h1], by simp [h2'], ?_, fun _ => ⟨rfl, rfl⟩⟩
      intro hcon
      simp at hcon
    · have hno2 : ¬ s.threshold ≤ rp - mid := by intro h; exact h2 (by linarith)
      simp only [trmMaybeOpen]
      rw [if_neg h1, if_neg h2]
      refine ⟨by simp [hflat, h1], by simp [hflat, hno2], ?_, ?_⟩ <;>
        · intro hcon
          rw [hflat] at hcon
          exact absurd hcon (by decide)

/-- C2: on a `ThresholdReversionMetric` update at `(t, mid)` with a
positive threshold: (part 1) if a position is held with reference `pr`
and `|mid − pr| ≤ pip_size`, the metric flattens and retries the
candidate search — it ends flat when the retry finds nothing, and when
the retry finds `(ref_time, ref_price)` it ends short exactly when
`mid − ref_price ≥ threshold` and long exactly when
`ref_price − mid ≥ threshold`, with `tp_price = mid ∓ tp_distance` and
`sl_price = mid ± sl_distance`; (part 2) the same open rules apply when
the metric enters the update flat (with no reference); (part 3) a
single update can flatten a held long and immediately reopen short. -/
theorem trm_update_open_rules :
    (∀ (s : TRMState) (t mid : ℚ), 0 < s.threshold →
      ∀ pr, s.p_ref = some pr → s.has_ref = true → s.position ≠ 0 →
      |mid - pr| ≤ s.pip_size →
      ((trmFindReference (trmStage1 s t mid) mid t = none →
        (trmUpdate s t mid).position = 0) ∧
       ∀ e, trmFindReference (trmStage1 s t mid) mid t = some e →
        ((trmUpdate s t mid).position = -1 ↔ s.threshold ≤ mid - e.2) ∧
        ((trmUpdate s t mid).position = 1 ↔ s.threshold ≤ e.2 - mid) ∧
        ((trmUpdate s t mid).position = -1 →
          (trmUpdate s t mid).tp_price = some (mid - s.tp_distance) ∧
          (trmUpdate s t mid).sl_price = some (mid + s.sl_distance)) ∧
        ((trmUpdate s t mid).position = 1 →
          (trmUpdate s t mid).tp_price = some (mid + s.tp_distance) ∧
          (trmUpdate s t mid).sl_price = some (mid - s.sl_distance)))) ∧
    (∀ (s : TRMState) (t mid : ℚ), 0 < s.threshold →
      s.position = 0 → s.has_ref = false →
      ((trmFindReference (trmStage1 s t mid) mid t = none →
        (trmUpdate s t mid).position = 0) ∧
       ∀ e, trmFindReference (trmStage1 s t mid) mid t = some e →
        ((trmUpdate s t mid).position = -1 ↔ s.threshold ≤ mid - e.2) ∧
        ((trmUpdate s t mid).position = 1 ↔ s.threshold ≤ e.2 - mid) ∧
        ((trmUpdate s t mid).position = -1 →
          (trmUpdate s t mid).tp_price = some (mid - s.tp_distance) ∧
          (trmUpdate s t mid).sl_price = some (mid + s.sl_distance)) ∧
        ((trmUpdate s t mid).position = 1 →
          (trmUpdate s t mid).tp_price = some (mid + s.tp_distance) ∧
          (trmUpdate s t mid).sl_price = some (mid - s.sl_distance)))) ∧
    (∃ (s : TRMState) (t mid pr : ℚ), s.position = 1 ∧ s.p_ref = some pr ∧
      |mid - pr| ≤ s.pip_size ∧ (trmUpdate s t mid).position = -1) := by
  refine ⟨?_, ?_, ?_⟩
  · intro s t mid hthr pr hpref hhasref hpos hle
    have hrev : (decide ((trmStage1 s t mid).position ≠ 0) &&
        (trmStage1 s t mid).has_ref &&
        fleB (fabsF (fsub (some mid) (trmStage1 s t mid).p_ref))
          (some (trmStage1 s t mid).pip_size)) = true := by
      have h3 : (trmStage1 s t mid).p_ref = some pr := hpref
      rw [show (trmStage1 s t mid).has_ref = s.has_ref from rfl, hhasref, h3]
      simp [fsub, fabsF, fleB, hpos, hle,
        show (trmStage1 s t mid).position = s.position from rfl,
        show (trmStage1 s t mid).pip_size = s.pip_size from rfl]
    have hred : trmUpdate s t mid =
        match trmFindReference (trmStage1 s t mid) mid t with
        | none => trmFlatten (trmFlatten (trmStage1 s t mid))
        | some e =>
          trmMaybeOpen (trmFlatten (trmStage1 s t mid)) e.2 e.1 mid t := by
      unfold trmUpdate
      simp only [hrev]
      rfl
    constructor
    · intro hnone
      rw [hred, hnone]
      rfl
    · intro e he
      rw [hred, he]
      exact trmMaybeOpen_spec (trmFlatten (trmStage1 s t mid)) e.2 e.1 mid t
        hthr rfl
  · intro s t mid hthr hflat hhasref
    constructor
    · intro hnone
      have hstep : trmUpdate s t mid = trmFlatten (trmStage1 s t mid) := by
        unfold trmUpdate
        simp only [show (trmStage1 s t mid).has_ref = s.has_ref from rfl,
          hhasref, show (trmStage1 s t mid).position = s.position from rfl,
          hflat, Bool.and_false, Bool.false_and, Bool.false_eq_true,
          if_false, hnone]
      rw [hstep]
      rfl
    · intro e he
      have hstep : trmUpdate s t mid =
          trmMaybeOpen (trmStage1 s t mid) e.2 e.1 mid t := by
        unfold trmUpdate
        simp only [show (trmStage1 s t mid).has_ref = s.has_ref from rfl,
          hhasref, show (trmStage1 s t mid).position = s.position from rfl,
          hflat, Bool.and_false, Bool.false_and, Bool.false_eq_true,
          if_false, he, if_pos rfl, if_true]
      rw [hstep]
      exact trmMaybeOpen_spec (trmStage1 s t mid) e.2 e.1 mid t hthr hflat
  · refine ⟨⟨1000, 10, 1, 5, 5, 0, [(5, 90)], [(5, 90)], some 100, some 5,
      some 6, some 105, some 95, some 100, some 9, true, true, 1⟩,
      10, 100, 100, rfl, rfl, by norm_num, ?_⟩
    norm_num [trmUpdate, trmStage1, trmAppendTick, mqAppend, mqTrim,
      mqTailCond, trmFindReference, mqFindCandidate, trmFlatten,
      trmMaybeOpen, fsub, fabsF, fleB, fltB, List.dropWhile, List.find?]

/-- Witness for C2 at concrete inputs: the held-position part on a
state whose retried candidate search finds a low reference (the
same-update reversal), and the flat part on a fresh state with no
candidate. -/
theorem trm_update_open_rules_witness :
    ((trmUpdate ⟨1000, 10, 1, 5, 5, 0, [(5, 90)], [(5, 90)], some 100,
        some 5, some 6, some 105, some 95, some 100, some 9, true, true, 1⟩
        10 100).position = -1 ↔
      (10 : ℚ) ≤ 100 - ((5 : ℚ), (90 : ℚ)).2) ∧
      (trmUpdate ⟨1000, 10, 1, 5, 5, 0, [], [], none, none, none, none,
        none, none, none, false, false, 0⟩ 0 5).position = 0 :=
  ⟨((trm_update_open_rules.1 ⟨1000, 10, 1, 5, 5, 0, [(5, 90)], [(5, 90)],
      some 100, some 5, some 6, some 105, some 95, some 100, some 9, true,
      true, 1⟩ 10 100 (by norm_num) 100 rfl rfl (by decide)
      (by norm_num)).2 ((5 : ℚ), (90 : ℚ))
      (by norm_num [trmStage1, trmAppendTick, mqAppend, mqTrim, mqTailCond,
        trmFindReference, mqFindCandidate, List.dropWhile, List.find?])).1,
   (trm_update_open_rules.2.1 ⟨1000, 10, 1, 5, 5, 0, [], [], none, none,
      none, none, none, none, none, false, false, 0⟩ 0 5 (by norm_num) rfl
      rfl).1
     (by norm_num [trmStage1, trmAppendTick, mqAppend, mqTrim, mqTailCond,
       trmFindReference, mqFindCandidate, List.dropWhile, List.find?])⟩

/-! ### Spread metric (`_spread_metric.pyx`, `SpreadMetric`) -/

/-- State of `SpreadMetric`: the two validated constructor parameters
(`pip_size > 0`, `window_seconds > 0` are checked in `__init__`), the
three result fields and the `(timestamp, spread_pips)` history. -/
structure SpreadState where
  pip_size : ℚ
  window : ℚ
  spread : FVal ℚ
  spread_pips : FVal ℚ
  percentile : FVal ℚ
  history : List (ℚ × FVal ℚ)

/-- `SpreadMetric.__init__`. -/
def spreadInit (pip window : ℚ) : SpreadState :=
  ⟨pip, window, none, none, none, []⟩

/-- `SpreadMetric.update_from_struct`: `spread = max(ask − bid, 0)`
(the negative-clamp comparison is false on NaN), `spread_pips =
spread / pip_size`, append to the history, trim entries older than
`timestamp − window`, and set the percentile to the counted fraction
of history entries with `spread_pips ≤ current` (NaN when the history
is empty). -/
def spreadUpdate (s : SpreadState) (t : ℚ) (bid ask : FVal ℚ) :
    SpreadState :=
  let raw0 := fsub ask bid
  let raw := if fltB raw0 (some 0) then some 0 else raw0
  let sp := fdiv raw (some s.pip_size)
  let hist := (s.history ++ [(t, sp)]).dropWhile
    (fun e => decide (e.1 < t - s.window))
  if hist.length = 0 then
    { s with
      spread := raw,
      spread_pips := sp,
      percentile := none,
      history := hist }
  else
    { s with
      spread := raw,
      spread_pips := sp,
      percentile :=
        some ((hist.countP (fun e => fleB e.2 sp) : ℚ) / (hist.length : ℚ)),
      history := hist }

lemma dropWhile_append_last {α : Type} (p : α → Bool) (x : α)
    (hx : p x = false) : ∀ l : List α, ∃ l2,
      (l ++ [x]).dropWhile p = l2 ++ [x] := by
  intro l
  induction l with
  | nil =>
    refine ⟨[], ?_⟩
    rw [List.nil_append, List.dropWhile_cons]
    simp [hx]
  | cons a l ih =>
    rw [List.cons_append, List.dropWhile_cons]
    by_cases hpa : p a = true
    · rw [if_pos hpa]
      exact ih
    · rw [if_neg hpa]
      exact ⟨a :: l, rfl⟩

/-- C10: after every `SpreadMetric` update on a tick with finite bid
and ask (the data-model invariant for delivered ticks),
`spread_percentile` is finite (never NaN) and lies in `(0, 1]`: the
sample appended for the current tick survives the trim and satisfies
the `≤` comparison against its own `spread_pips`, so the counted
fraction has numerator `≥ 1` and denominator `≥ 1`. -/
theorem spread_percentile_in_unit (s : SpreadState) (t b a : ℚ)
    (hw : 0 < s.window) (hp : 0 < s.pip_size) :
    ∃ p : ℚ, (spreadUpdate s t (some b) (some a)).percentile = some p ∧
      0 < p ∧ p ≤ 1 := by
  have hraw : ∃ r : ℚ, 0 ≤ r ∧
      (if fltB (fsub (some a) (some b)) (some 0) then some 0
        else fsub (some a) (some b)) = some r := by
    by_cases h : a - b < 0
    · exact ⟨0, le_refl _, by simp [fsub, fltB, h]⟩
    · exact ⟨a - b, not_lt.1 h, by simp [fsub, fltB, h]⟩
  obtain ⟨r, hr0, hreq⟩ := hraw
  have hsp : fdiv (some r) (some s.pip_size) = some (r / s.pip_size) := by
    simp [fdiv, ne_of_gt hp]
  set sp : ℚ := r / s.pip_size with hspdef
  have hlast : (fun e : ℚ × FVal ℚ => decide (e.1 < t - s.window))
      (t, some sp) = false := by
    simp only [decide_eq_false_iff_not, not_lt]
    linarith
  obtain ⟨l2, hl2⟩ :=
    dropWhile_append_last (fun e : ℚ × FVal ℚ => decide (e.1 < t - s.window))
      (t, some sp) hlast s.history
  have hupd : spreadUpdate s t (some b) (some a) =
      (if (l2 ++ [(t, some sp)]).length = 0 then
        { s with
          spread := some r,
          spread_pips := some sp,
          percentile := none,
          history := l2 ++ [(t, some sp)] }
      else
        { s with
          spread := some r,
          spread_pips := some sp,
          percentile := some
            (((l2 ++ [(t, some sp)]).countP
                (fun e => fleB e.2 (some sp)) : ℚ) /
              ((l2 ++ [(t, some sp)]).length : ℚ)),
          history := l2 ++ [(t, some sp)] }) := by
    unfold spreadUpdate
    simp only [hreq, hsp, hl2]
  have hlen : (l2 ++ [(t, some sp)]).length = l2.length + 1 := by simp
  have hlenne : ¬ (l2 ++ [(t, some sp)]).length = 0 := by
    rw [hlen]
    exact Nat.succ_ne_zero _
  rw [hupd, if_neg hlenne]
  have hcount : 1 ≤ (l2 ++ [(t, some sp)]).countP
      (fun e => fleB e.2 (some sp)) := by
    rw [List.countP_append]
    have : List.countP (fun e : ℚ × FVal ℚ => fleB e.2 (some sp))
        [(t, some sp)] = 1 := by
      simp [List.countP, List.countP.go, fleB]
    omega
  have hcle : (l2 ++ [(t, some sp)]).countP (fun e => fleB e.2 (some sp)) ≤
      (l2 ++ [(t, some sp)]).length := List.countP_le_length _
  have hlpos : 0 < (l2 ++ [(t, some sp)]).length := by
    rw [hlen]
    exact Nat.succ_pos _
  refine ⟨_, rfl, ?_, ?_⟩
  · apply div_pos
    · exact_mod_cast Nat.lt_of_lt_of_le Nat.zero_lt_one hcount
    · exact_mod_cast hlpos
  · rw [div_le_one (by exact_mod_cast hlpos)]
    exact_mod_cast hcle

/-- Witness for C10 at a fresh spread metric and the tick
`(t = 0, bid = 1, ask = 2)`. -/
theorem spread_percentile_in_unit_witness :
    ∃ p : ℚ, (spreadUpdate (spreadInit 1 60) 0 (some 1)
        (some 2)).percentile = some p ∧ 0 < p ∧ p ≤ 1 :=
  spread_percentile_in_unit (spreadInit 1 60) 0 1 2
    (by norm_num [spreadInit]) (by norm_num [spreadInit])

/-! ### Time-weighted histogram (`_time_weighted_histogram.pyx`,
`TimeWeightedHistogram`)

Edges are a list; the weights array is a total function that is zero
outside the bin range; the event ring is a list (head first). -/

/-- One event of the histogram ring: interval start, interval end and
the bin index the weight went to. -/
structure HEvent where
  start : ℚ
  endT : ℚ
  bin : ℕ
deriving DecidableEq

/-- State of `TimeWeightedHistogram`.  `n` is `n_bins =
edges.length − 1`. -/
structure HState where
  edges : List ℚ
  horizon : ℚ
  n : ℕ
  w : ℕ → ℚ
  total : ℚ
  events : List HEvent

/-- `TimeWeightedHistogram.__cinit__` (after the constructor
assertions: at least two strictly increasing edges, positive
horizon). -/
def histInit (edges : List ℚ) (horizon : ℚ) : HState :=
  ⟨edges, horizon, edges.length - 1, fun _ => 0, 0, []⟩

/-- The binary-search loop of `_bin_index` over `[lo, hi)`. -/
def binSearchGo (edges : List ℚ) (x : ℚ) (lo hi : ℕ) : ℕ :=
  if lo < hi then
    let mid := (lo + hi) / 2
    if edges.getD (mid + 1) 0 ≤ x then binSearchGo edges x (mid + 1) hi
    else if x < edges.getD mid 0 then binSearchGo edges x lo mid
    else mid
  else lo
termination_by hi - lo
decreasing_by
  · omega
  · omega

/-- `TimeWeightedHistogram._bin_index`: clamp below the first edge to
bin 0 and at or above the last edge to bin `n − 1`, else binary search
(with the post-loop clamp of the source). -/
def binIndex (s : HState) (x : ℚ) : ℕ :=
  if x ≤ s.edges.getD 0 0 then 0
  else if s.edges.getD s.n 0 ≤ x then s.n - 1
  else
    let r := binSearchGo s.edges x 0 s.n
    if s.n ≤ r then s.n - 1 else r

/-- `TimeWeightedHistogram.add`: ignore non-positive intervals, else
assign `end − start` of weight to the value's bin and append the
event. -/
def histAdd (s : HState) (start endT value : ℚ) : HState :=
  if endT ≤ start then s
  else
    let b := binIndex s value
    { s with
      w := fun i => if i = b then s.w i + (endT - start) else s.w i,
      total := s.total + (endT - start),
      events := s.events ++ [⟨start, endT, b⟩] }

/-- The eviction loop of `TimeWeightedHistogram.trim`: evict events
whose end is `≤ cutoff`, partially decay a straddling head event, stop
otherwise. -/
def histTrimGo (cutoff : ℚ) :
    List HEvent → (ℕ → ℚ) → ℚ → List HEvent × (ℕ → ℚ) × ℚ
  | [], w, total => ([], w, total)
  | ev :: rest, w, total =>
    if ev.endT ≤ cutoff then
      histTrimGo cutoff rest
        (fun i => if i = ev.bin then w i - (ev.endT - ev.start) else w i)
        (total - (ev.endT - ev.start))
    else if ev.start < cutoff ∧ cutoff < ev.endT then
      (⟨cutoff, ev.endT, ev.bin⟩ :: rest,
        fun i => if i = ev.bin then w i - (cutoff - ev.start) else w i,
        total - (cutoff - ev.start))
    else (ev :: rest, w, total)

/-- `TimeWeightedHistogram.trim`: early return on an empty ring, the
eviction loop, then the tiny-negative-total clamp
(`TINY_TOTAL = 1e-9`). -/
def histTrim (s : HState) (now : ℚ) : HState :=
  if s.events = [] then s
  else
    let r := histTrimGo (now - s.horizon) s.events s.w s.total
    let total := if r.2.2 < 0 ∧ |r.2.2| < 1 / 10 ^ 9 then 0 else r.2.2
    { s with events := r.1, w := r.2.1, total := total }

/-- The clamp of the fractional bin contribution into `[0, 1]`. -/
def clamp01 (a : ℚ) : ℚ :=
  if a < 0 then 0 else if 1 < a then 1 else a

/-- The fractional contribution of bin `b` at `x` in
`percentile_rank`: `(x − edge_lo)/(edge_hi − edge_lo)` clamped into
`[0, 1]`, and `0` when the bin is degenerate. -/
def binFrac (s : HState) (b : ℕ) (x : ℚ) : ℚ :=
  if s.edges.getD b 0 < s.edges.getD (b + 1) 0 then
    clamp01 ((x - s.edges.getD b 0) /
      (s.edges.getD (b + 1) 0 - s.edges.getD b 0))
  else 0

/-- `TimeWeightedHistogram.percentile_rank`: NaN when `total ≤ 0`,
else the cumulative share `(below + w[bin]·frac)/total` with the
bin fraction clamped into `[0, 1]`. -/
def percentileRank (s : HState) (x : ℚ) : FVal ℚ :=
  if s.total ≤ 0 then none
  else
    let b := binIndex s x
    some (((Finset.range b).sum (fun i => s.w i) + s.w b * binFrac s b x) /
      s.total)

/-- Reachable histogram states: a validly constructed histogram
followed by any sequence of `add` and `trim` calls. -/
inductive HReach : HState → Prop where
  | init (edges : List ℚ) (horizon : ℚ) (h2 : 2 ≤ edges.length)
      (hmono : edges.Chain' (· < ·)) (hh : 0 < horizon) :
      HReach (histInit edges horizon)
  | add (s : HState) (start endT value : ℚ) (h : HReach s) :
      HReach (histAdd s start endT value)
  | trim (s : HState) (now : ℚ) (h : HReach s) :
      HReach (histTrim s now)

/-- Exact per-bin weight carried by a list of events. -/
def eventWeight (evs : List HEvent) (i : ℕ) : ℚ :=
  ((evs.filter (fun ev => decide (ev.bin = i))).map
    (fun ev => ev.endT - ev.start)).sum

/-- Total weight carried by a list of events. -/
def eventTotal (evs : List HEvent) : ℚ :=
  (evs.map (fun ev => ev.endT - ev.start)).sum

/-- Well-formedness of a histogram state: valid construction data,
live events with positive remaining weight and in-range bins, and
weights/total that equal the exact sums over the live events. -/
def HWf (s : HState) : Prop :=
  s.n + 1 = s.edges.length ∧ 1 ≤ s.n ∧ s.edges.Chain' (· < ·) ∧
    (∀ ev ∈ s.events, ev.start < ev.endT ∧ ev.bin < s.n) ∧
    (∀ i, s.w i = eventWeight s.events i) ∧
    s.total = eventTotal s.events

lemma eventWeight_cons (ev : HEvent) (evs : List HEvent) (i : ℕ) :
    eventWeight (ev :: evs) i =
      (if ev.bin = i then ev.endT - ev.start else 0) + eventWeight evs i := by
  unfold eventWeight
  by_cases h : ev.bin = i <;> simp [List.filter_cons, h]

lemma eventWeight_append (a b : List HEvent) (i : ℕ) :
    eventWeight (a ++ b) i = eventWeight a i + eventWeight b i := by
  simp [eventWeight, List.filter_append]

lemma eventTotal_cons (ev : HEvent) (evs : List HEvent) :
    eventTotal (ev :: evs) = (ev.endT - ev.start) + eventTotal evs := by
  simp [eventTotal]

lemma eventTotal_append (a b : List HEvent) :
    eventTotal (a ++ b) = eventTotal a + eventTotal b := by
  simp [eventTotal]

lemma eventWeight_nonneg {evs : List HEvent}
    (h : ∀ ev ∈ evs, ev.start < ev.endT) (i : ℕ) : 0 ≤ eventWeight evs i := by
  unfold eventWeight
  apply List.sum_nonneg
  intro q hq
  obtain ⟨ev, hev, rfl⟩ := List.mem_map.1 hq
  have := h ev (List.mem_of_mem_filter hev)
  linarith

lemma eventTotal_eq_sum (n : ℕ) : ∀ (evs : List HEvent),
    (∀ ev ∈ evs, ev.bin < n) →
    eventTotal evs = (Finset.range n).sum (fun i => eventWeight evs i) := by
  intro evs
  induction evs with
  | nil => intro _; simp [eventTotal, eventWeight]
  | cons ev rest ih =>
    intro h
    rw [eventTotal_cons, ih (fun e he => h e (List.mem_cons_of_mem _ he))]
    have hbin : ev.bin ∈ Finset.range n := by
      simp [h ev (List.mem_cons_self _ _)]
    calc ev.endT - ev.start +
          (Finset.range n).sum (fun i => eventWeight rest i)
        = (Finset.range n).sum
            (fun i => if ev.bin = i then ev.endT - ev.start else 0) +
          (Finset.range n).sum (fun i => eventWeight rest i) := by
          rw [Finset.sum_ite_eq (Finset.range n) ev.bin
            (fun _ => ev.endT - ev.start), if_pos hbin]
      _ = (Finset.range n).sum (fun i => eventWeight (ev :: rest) i) := by
          rw [← Finset.sum_add_distrib]
          apply Finset.sum_congr rfl
          intro i _
          rw [eventWeight_cons]

lemma binIndex_lt (s : HState) (hn : 1 ≤ s.n) (x : ℚ) :
    binIndex s x < s.n := by
  simp only [binIndex]
  split_ifs <;> omega

lemma histAdd_wf {s : HState} (hwf : HWf s) (a b v : ℚ) :
    HWf (histAdd s a b v) := by
  obtain ⟨hlen, hn, hmono, hev, hw, ht⟩ := hwf
  unfold histAdd
  by_cases hab : b ≤ a
  · rw [if_pos hab]
    exact ⟨hlen, hn, hmono, hev, hw, ht⟩
  · rw [if_neg hab]
    refine ⟨hlen, hn, hmono, ?_, ?_, ?_⟩
    · intro ev hevm
      rcases List.mem_append.1 hevm with hm | hm
      · exact hev ev hm
      · rcases List.mem_singleton.1 hm with rfl
        exact ⟨not_le.1 hab, binIndex_lt s hn v⟩
    · intro i
      dsimp only
      rw [eventWeight_append, hw i]
      by_cases hib : i = binIndex s v
      · subst hib
        rw [if_pos rfl]
        simp [eventWeight, List.filter_cons]
      · rw [if_neg hib]
        have hne : ¬ binIndex s v = i := fun h => hib h.symm
        have hz : eventWeight [⟨a, b, binIndex s v⟩] i = 0 := by
          simp [eventWeight, List.filter_cons, hne]
        rw [hz, add_zero]
    · dsimp only
      rw [eventTotal_append, ht, eventTotal_cons]
      simp [eventTotal]

lemma histTrimGo_spec (cutoff : ℚ) (n : ℕ) : ∀ (evs : List HEvent)
    (w : ℕ → ℚ) (total : ℚ),
    (∀ ev ∈ evs, ev.start < ev.endT ∧ ev.bin < n) →
    (∀ i, w i = eventWeight evs i) → total = eventTotal evs →
    (∀ ev ∈ (histTrimGo cutoff evs w total).1,
      ev.start < ev.endT ∧ ev.bin < n) ∧
      (∀ i, (histTrimGo cutoff evs w total).2.1 i =
        eventWeight (histTrimGo cutoff evs w total).1 i) ∧
      (histTrimGo cutoff evs w total).2.2 =
        eventTotal (histTrimGo cutoff evs w total).1 := by
  intro evs
  induction evs with
  | nil =>
    intro w total _ hw ht
    exact ⟨by simp [histTrimGo], fun i => by simpa [histTrimGo] using hw i,
      by simpa [histTrimGo] using ht⟩
  | cons ev rest ih =>
    intro w total hev hw ht
    by_cases h1 : ev.endT ≤ cutoff
    · have heq : histTrimGo cutoff (ev :: rest) w total =
          histTrimGo cutoff rest
            (fun i => if i = ev.bin then w i - (ev.endT - ev.start) else w i)
            (total - (ev.endT - ev.start)) := by
        simp only [histTrimGo, if_pos h1]
      rw [heq]
      apply ih
      · exact fun e he => hev e (List.mem_cons_of_mem _ he)
      · intro i
        dsimp only
        rw [hw i, eventWeight_cons]
        by_cases hib : i = ev.bin
        · rw [if_pos hib, if_pos hib.symm]
          ring
        · rw [if_neg hib, if_neg (fun h => hib h.symm)]
          ring
      · rw [ht, eventTotal_cons]
        ring
    · by_cases h2 : ev.start < cutoff ∧ cutoff < ev.endT
      · have heq : histTrimGo cutoff (ev :: rest) w total =
            (⟨cutoff, ev.endT, ev.bin⟩ :: rest,
              fun i => if i = ev.bin then w i - (cutoff - ev.start) else w i,
              total - (cutoff - ev.start)) := by
          simp only [histTrimGo, if_neg h1, if_pos h2]
        rw [heq]
        refine ⟨?_, ?_, ?_⟩
        · intro e he
          rcases List.mem_cons.1 he with rfl | he
          · exact ⟨h2.2, (hev ev (List.mem_cons_self _ _)).2⟩
          · exact hev e (List.mem_cons_of_mem _ he)
        · intro i
          dsimp only
          rw [hw i, eventWeight_cons, eventWeight_cons]
          by_cases hib : i = ev.bin
          · rw [if_pos hib, if_pos hib.symm, if_pos hib.symm]
            dsimp only
            ring
          · rw [if_neg hib, if_neg (fun h => hib h.symm),
              if_neg (fun h => hib h.symm)]
        · dsimp only
          rw [ht, eventTotal_cons, eventTotal_cons]
          dsimp only
          ring
      · have heq : histTrimGo cutoff (ev :: rest) w total =
            (ev :: rest, w, total) := by
          simp only [histTrimGo, if_neg h1, if_neg h2]
        rw [heq]
        exact ⟨hev, hw, ht⟩

lemma histTrim_wf {s : HState} (hwf : HWf s) (now : ℚ) :
    HWf (histTrim s now) := by
  obtain ⟨hlen, hn, hmono, hev, hw, ht⟩ := hwf
  unfold histTrim
  by_cases hempty : s.events = []
  · rw [if_pos hempty]
    exact ⟨hlen, hn, hmono, hev, hw, ht⟩
  · rw [if_neg hempty]
    obtain ⟨r1, r2, r3⟩ :=
      histTrimGo_spec (now - s.horizon) s.n s.events s.w s.total hev hw ht
    have htotnn : 0 ≤ (histTrimGo (now - s.horizon) s.events s.w s.total).2.2 := by
      rw [r3]
      unfold eventTotal
      apply List.sum_nonneg
      intro q hq
      obtain ⟨e, he, rfl⟩ := List.mem_map.1 hq
      linarith [(r1 e he).1]
    have hcl : ¬ ((histTrimGo (now - s.horizon) s.events s.w s.total).2.2 < 0 ∧
        |(histTrimGo (now - s.horizon) s.events s.w s.total).2.2| <
          1 / 10 ^ 9) := by
      intro hcon
      linarith [hcon.1]
    simp only [hcl, if_false]
    exact ⟨hlen, hn, hmono, r1, r2, r3⟩

lemma hreach_wf {s : HState} (h : HReach s) : HWf s := by
  induction h with
  | init edges horizon h2 hmono hh =>
    refine ⟨by simp [histInit]; omega, by simp [histInit]; omega,
      hmono, by simp [histInit], fun i => by simp [histInit, eventWeight],
      by simp [histInit, eventTotal]⟩
  | add s a b v _ ih => exact histAdd_wf ih a b v
  | trim s now _ ih => exact histTrim_wf ih now

lemma clamp01_nonneg (a : ℚ) : 0 ≤ clamp01 a := by
  unfold clamp01
  split_ifs <;> linarith

lemma clamp01_le_one (a : ℚ) : clamp01 a ≤ 1 := by
  unfold clamp01
  split_ifs <;> linarith

lemma clamp01_mono {a b : ℚ} (h : a ≤ b) : clamp01 a ≤ clamp01 b := by
  unfold clamp01
  split_ifs <;> linarith

lemma binFrac_nonneg (s : HState) (b : ℕ) (x : ℚ) : 0 ≤ binFrac s b x := by
  unfold binFrac
  split_ifs
  · exact clamp01_nonneg _
  · exact le_refl 0

lemma binFrac_le_one (s : HState) (b : ℕ) (x : ℚ) : binFrac s b x ≤ 1 := by
  unfold binFrac
  split_ifs
  · exact clamp01_le_one _
  · exact zero_le_one

lemma binFrac_mono (s : HState) (b : ℕ) {x y : ℚ} (hxy : x ≤ y) :
    binFrac s b x ≤ binFrac s b y := by
  unfold binFrac
  split_ifs with h
  · apply clamp01_mono
    apply div_le_div_of_nonneg_right _ (by linarith)
    linarith
  · exact le_refl 0

lemma edges_strict {edges : List ℚ}
    (hmono : edges.Chain' (· < ·)) {i j : ℕ}
    (hij : i < j) (hj : j < edges.length) :
    edges.getD i 0 < edges.getD j 0 := by
  have hp : edges.Pairwise (· < ·) := List.chain'_iff_pairwise.1 hmono
  have hi : i < edges.length := lt_trans hij hj
  rw [List.getD_eq_getElem edges 0 hi, List.getD_eq_getElem edges 0 hj]
  exact List.pairwise_iff_getElem.1 hp i j hi hj hij

lemma edges_mono {edges : List ℚ}
    (hmono : edges.Chain' (· < ·)) {i j : ℕ}
    (hij : i ≤ j) (hj : j < edges.length) :
    edges.getD i 0 ≤ edges.getD j 0 := by
  rcases Nat.lt_or_ge i j with h | h
  · exact le_of_lt (edges_strict hmono h hj)
  · have : i = j := le_antisymm hij h
    rw [this]

lemma binSearchGo_spec (edges : List ℚ) (x : ℚ) :
    ∀ (fuel lo hi : ℕ), hi - lo ≤ fuel → lo < hi →
      edges.getD lo 0 ≤ x → x < edges.getD hi 0 →
      lo ≤ binSearchGo edges x lo hi ∧ binSearchGo edges x lo hi < hi ∧
      edges.getD (binSearchGo edges x lo hi) 0 ≤ x ∧
      x < edges.getD (binSearchGo edges x lo hi + 1) 0 := by
  intro fuel
  induction fuel with
  | zero =>
    intro lo hi hf hlh _ _
    omega
  | succ f ih =>
    intro lo hi hf hlh hlox hxhi
    rw [binSearchGo]
    rw [if_pos hlh]
    dsimp only
    by_cases hc1 : edges.getD ((lo + hi) / 2 + 1) 0 ≤ x
    · rw [if_pos hc1]
      have hmidlt : (lo + hi) / 2 < hi := by omega
      have hmid1 : (lo + hi) / 2 + 1 < hi := by
        rcases Nat.lt_or_ge ((lo + hi) / 2 + 1) hi with h | h
        · exact h
        · have heq : (lo + hi) / 2 + 1 = hi := by omega
          rw [heq] at hc1
          linarith
      have hr := ih ((lo + hi) / 2 + 1) hi (by omega) hmid1 hc1 hxhi
      exact ⟨le_trans (by omega) hr.1, hr.2.1, hr.2.2.1, hr.2.2.2⟩
    · rw [if_neg hc1]
      by_cases hc2 : x < edges.getD ((lo + hi) / 2) 0
      · rw [if_pos hc2]
        have hlomid : lo < (lo + hi) / 2 := by
          rcases Nat.lt_or_ge lo ((lo + hi) / 2) with h | h
          · exact h
          · have heq : lo = (lo + hi) / 2 := by omega
            rw [← heq] at hc2
            linarith
        have hr := ih lo ((lo + hi) / 2) (by omega) hlomid hlox hc2
        exact ⟨hr.1, lt_trans hr.2.1 (by omega), hr.2.2.1, hr.2.2.2⟩
      · rw [if_neg hc2]
        exact ⟨by omega, by omega, not_lt.1 hc2, not_le.1 hc1⟩

lemma binIndex_spec (s : HState) (x : ℚ) (hlen : s.n + 1 = s.edges.length)
    (hn : 1 ≤ s.n) (hmono : s.edges.Chain' (· < ·)) :
    (binIndex s x = 0 ∨ s.edges.getD (binIndex s x) 0 ≤ x) ∧
      (binIndex s x = s.n - 1 ∨ x < s.edges.getD (binIndex s x + 1) 0) := by
  have hnlen : s.n < s.edges.length := by omega
  unfold binIndex
  by_cases h1 : x ≤ s.edges.getD 0 0
  · rw [if_pos h1]
    refine ⟨Or.inl rfl, Or.inr ?_⟩
    exact lt_of_le_of_lt h1 (edges_strict hmono (by omega) (by omega))
  · rw [if_neg h1]
    by_cases h2 : s.edges.getD s.n 0 ≤ x
    · rw [if_pos h2]
      refine ⟨Or.inr ?_, Or.inl rfl⟩
      exact le_trans (edges_mono hmono (by omega) hnlen) h2
    · rw [if_neg h2]
      have hr := binSearchGo_spec s.edges x s.n 0 s.n (by omega) (by omega)
        (le_of_lt (not_le.1 h1)) (not_le.1 h2)
      dsimp only
      rw [if_neg (not_le.2 hr.2.1)]
      exact ⟨Or.inr hr.2.2.1, Or.inr hr.2.2.2⟩

lemma binIndex_mono (s : HState) (hlen : s.n + 1 = s.edges.length)
    (hn : 1 ≤ s.n) (hmono : s.edges.Chain' (· < ·)) {x y : ℚ}
    (hxy : x ≤ y) : binIndex s x ≤ binIndex s y := by
  by_contra hlt
  have hlt' : binIndex s y < binIndex s x := not_le.1 hlt
  have hxspec := binIndex_spec s x hlen hn hmono
  have hyspec := binIndex_spec s y hlen hn hmono
  have hxlo : s.edges.getD (binIndex s x) 0 ≤ x := by
    rcases hxspec.1 with h | h
    · omega
    · exact h
  have hyhi : y < s.edges.getD (binIndex s y + 1) 0 := by
    rcases hyspec.2 with h | h
    · exfalso
      have := binIndex_lt s hn x
      omega
    · exact h
  have hle : s.edges.getD (binIndex s y + 1) 0 ≤
      s.edges.getD (binIndex s x) 0 := by
    apply edges_mono hmono (by omega)
    have := binIndex_lt s hn x
    omega
  linarith

/-- C6: for every reachable `TimeWeightedHistogram` state,
`percentile_rank` returns NaN when `total ≤ 0`; when `total > 0` it is
monotone non-decreasing in `x` and every returned value lies in
`[0, 1]`. -/
theorem hist_percentile_rank_props (s : HState) (hr : HReach s) :
    (s.total ≤ 0 → ∀ x : ℚ, percentileRank s x = none) ∧
      (0 < s.total → ∀ x y : ℚ, x ≤ y →
        ∃ px py : ℚ, percentileRank s x = some px ∧
          percentileRank s y = some py ∧ 0 ≤ px ∧ px ≤ py ∧ py ≤ 1) := by
  obtain ⟨hlen, hn, hmono, hev, hw, ht⟩ := hreach_wf hr
  constructor
  · intro htot x
    unfold percentileRank
    rw [if_pos htot]
  · intro htot x y hxy
    have hwnn : ∀ i, 0 ≤ s.w i := fun i =>
      (hw i) ▸ eventWeight_nonneg (fun ev he => (hev ev he).1) i
    have htsum : s.total = (Finset.range s.n).sum (fun i => s.w i) := by
      rw [ht, eventTotal_eq_sum s.n s.events (fun ev he => (hev ev he).2)]
      exact Finset.sum_congr rfl (fun i _ => (hw i).symm)
    have hb1 : binIndex s x < s.n := binIndex_lt s hn x
    have hb2 : binIndex s y < s.n := binIndex_lt s hn y
    have hb12 : binIndex s x ≤ binIndex s y := binIndex_mono s hlen hn hmono hxy
    have hnum_le : ∀ (b : ℕ) (z : ℚ), b < s.n →
        (Finset.range b).sum (fun i => s.w i) + s.w b * binFrac s b z ≤
          (Finset.range s.n).sum (fun i => s.w i) := by
      intro b z hbn
      have h1 : s.w b * binFrac s b z ≤ s.w b :=
        mul_le_of_le_one_right (hwnn b) (binFrac_le_one s b z)
      have h2 : (Finset.range b).sum (fun i => s.w i) + s.w b =
          (Finset.range (b + 1)).sum (fun i => s.w i) :=
        (Finset.sum_range_succ _ b).symm
      have h3 : (Finset.range (b + 1)).sum (fun i => s.w i) ≤
          (Finset.range s.n).sum (fun i => s.w i) := by
        apply Finset.sum_le_sum_of_subset_of_nonneg
        · exact Finset.range_subset.2 hbn
        · exact fun i _ _ => hwnn i
      linarith
    have hnum_nn : ∀ (b : ℕ) (z : ℚ),
        0 ≤ (Finset.range b).sum (fun i => s.w i) + s.w b * binFrac s b z := by
      intro b z
      have h1 : 0 ≤ (Finset.range b).sum (fun i => s.w i) :=
        Finset.sum_nonneg (fun i _ => hwnn i)
      have h2 : 0 ≤ s.w b * binFrac s b z :=
        mul_nonneg (hwnn b) (binFrac_nonneg s b z)
      linarith
    have hx : percentileRank s x =
        some (((Finset.range (binIndex s x)).sum (fun i => s.w i) +
          s.w (binIndex s x) * binFrac s (binIndex s x) x) / s.total) := by
      unfold percentileRank
      rw [if_neg (not_le.2 htot)]
    have hy : percentileRank s y =
        some (((Finset.range (binIndex s y)).sum (fun i => s.w i) +
          s.w (binIndex s y) * binFrac s (binIndex s y) y) / s.total) := by
      unfold percentileRank
      rw [if_neg (not_le.2 htot)]
    refine ⟨_, _, hx, hy, ?_, ?_, ?_⟩
    · exact div_nonneg (hnum_nn _ x) (le_of_lt htot)
    · apply div_le_div_of_nonneg_right _ (le_of_lt htot)
      rcases Nat.lt_or_ge (binIndex s x) (binIndex s y) with hlt | hge
      · have h1 : (Finset.range (binIndex s x)).sum (fun i => s.w i) +
            s.w (binIndex s x) * binFrac s (binIndex s x) x ≤
            (Finset.range (binIndex s x + 1)).sum (fun i => s.w i) := by
          have := mul_le_of_le_one_right (hwnn (binIndex s x))
            (binFrac_le_one s (binIndex s x) x)
          rw [Finset.sum_range_succ]
          linarith
        have h2 : (Finset.range (binIndex s x + 1)).sum (fun i => s.w i) ≤
            (Finset.range (binIndex s y)).sum (fun i => s.w i) := by
          apply Finset.sum_le_sum_of_subset_of_nonneg
          · exact Finset.range_subset.2 hlt
          · exact fun i _ _ => hwnn i
        have h3 : (Finset.range (binIndex s y)).sum (fun i => s.w i) ≤
            (Finset.range (binIndex s y)).sum (fun i => s.w i) +
              s.w (binIndex s y) * binFrac s (binIndex s y) y := by
          have := mul_nonneg (hwnn (binIndex s y))
            (binFrac_nonneg s (binIndex s y) y)
          linarith
        linarith
      · have hbeq : binIndex s x = binIndex s y := le_antisymm hb12 hge
        rw [hbeq]
        have := mul_le_mul_of_nonneg_left
          (binFrac_mono s (binIndex s y) hxy) (hwnn (binIndex s y))
        linarith
    · rw [div_le_one htot]
      rw [htsum]
      exact hnum_le _ y hb2

/-- Witness for C6 at a concrete reachable histogram: edges
`[0, 1, 2]`, one unit-weight add of value `1/2`, then ranks at
`x = 0` and `y = 3`. -/
theorem hist_percentile_rank_props_witness :
    ((histAdd (histInit [0, 1, 2] 10) 0 1 (1 / 2)).total ≤ 0 →
      ∀ x : ℚ, percentileRank (histAdd (histInit [0, 1, 2] 10) 0 1 (1 / 2))
        x = none) ∧
      (0 < (histAdd (histInit [0, 1, 2] 10) 0 1 (1 / 2)).total →
        ∀ x y : ℚ, x ≤ y →
        ∃ px py : ℚ,
          percentileRank (histAdd (histInit [0, 1, 2] 10) 0 1 (1 / 2)) x =
            some px ∧
          percentileRank (histAdd (histInit [0, 1, 2] 10) 0 1 (1 / 2)) y =
            some py ∧ 0 ≤ px ∧ px ≤ py ∧ py ≤ 1) :=
  hist_percentile_rank_props (histAdd (histInit [0, 1, 2] 10) 0 1 (1 / 2))
    (HReach.add _ 0 1 (1 / 2)
      (HReach.init [0, 1, 2] 10 (by simp) (by norm_num) (by norm_num)))

/-! ### Metrics manager (`_metrics_manager.pyx`, `MetricsManager`)

The manager is modelled over a closed universe of the embedded metrics
(session, z-score, spread); the snapshot dictionary is an
insertion-ordered association list, matching Python dict semantics. -/

/-- A canonical tick record (`TickStruct`): timestamp and wall-clock
components are finite by the producer contract, quote fields may be
non-finite. -/
structure Tick where
  timestamp : ℚ
  bid : FVal ℚ
  ask : FVal ℚ
  mid : FVal ℚ
  hour : ℕ
  minute : ℕ

/-- A snapshot value: numeric (real or rational double) or the
categorical session label. -/
inductive SnapVal where
  | num (v : FVal ℝ)
  | rat (v : FVal ℚ)
  | str (s : String)

/-- The metric universe of the manager model. -/
inductive MetricState where
  | session (s : SessionState)
  | zscore (s : ZScoreState)
  | spread (s : SpreadState)

/-- Dispatch of `update_from_struct` over the metric universe. -/
noncomputable def metricUpdate : MetricState → Tick → MetricState
  | .session s, tk => .session (sessionUpdate s tk.hour tk.minute)
  | .zscore s, tk => .zscore (zscoreUpdate s tk.timestamp tk.mid)
  | .spread s, tk => .spread (spreadUpdate s tk.timestamp tk.bid tk.ask)

/-- Dispatch of `value()` over the metric universe. -/
def metricValue : MetricState → List (String × SnapVal)
  | .session s => [("session_label", .str s.session)]
  | .zscore s => [("z_score", .num s.z), ("rolling_residual", .num s.resid)]
  | .spread s =>
    [("spread", .rat s.spread), ("spread_pips", .rat s.spread_pips),
      ("spread_percentile", .rat s.percentile)]

/-- `dict.pop(k, None)` on an insertion-ordered dictionary. -/
def dictPop (d : List (String × SnapVal)) (k : String) :
    List (String × SnapVal) :=
  d.filter (fun e => !(e.1 == k))

/-- `dict[k] = v` on an insertion-ordered dictionary: replace in place
when present, append otherwise. -/
def dictSet (d : List (String × SnapVal)) (k : String) (v : SnapVal) :
    List (String × SnapVal) :=
  if d.any (fun e => e.1 == k) then
    d.map (fun e => if e.1 == k then (k, v) else e)
  else d ++ [(k, v)]

/-- State of `MetricsManager`: named metrics, the per-metric key and
full-key caches, and the persistent snapshot dictionary. -/
structure ManagerState where
  metrics : List (String × MetricState)
  keyCache : List (List String)
  fullKeyCache : List (List String)
  snapshot : List (String × SnapVal)

/-- The per-metric loop body of `MetricsManager.update_all`: update
the metric, read its values, refresh the key caches when the key set
changed (dropping obsolete snapshot keys), and write every
`"name.key"` into the snapshot. -/
noncomputable def updateAllGo (tk : Tick) :
    List (String × MetricState) → List (List String) →
    List (List String) → List (String × SnapVal) →
    List (String × MetricState) × List (List String) ×
      List (List String) × List (String × SnapVal)
  | [], _, _, snap => ([], [], [], snap)
  | (name, m) :: rest, kc, fkc, snap =>
    let m' := metricUpdate m tk
    let values := metricValue m'
    let keys := values.map (fun e => e.1)
    let cachedK := kc.headD []
    let cachedF := fkc.headD []
    let refresh := cachedK.isEmpty || decide (keys ≠ cachedK)
    let newK := if refresh then keys else cachedK
    let newF := if refresh then keys.map (fun k => name ++ "." ++ k)
      else cachedF
    let snap1 := if refresh then
        (cachedF.filter (fun k => decide (k ∉ newF))).foldl dictPop snap
      else snap
    let snap2 := (newK.zip newF).foldl
      (fun d kv =>
        dictSet d kv.2 ((values.lookup kv.1).getD (SnapVal.str "None")))
      snap1
    let r := updateAllGo tk rest kc.tail fkc.tail snap2
    ((name, m') :: r.1, newK :: r.2.1, newF :: r.2.2.1, r.2.2.2)

/-- `MetricsManager.update_all`: run the loop over all metrics and
return the new state together with the snapshot copy it returns. -/
noncomputable def updateAll (st : ManagerState) (tk : Tick) :
    ManagerState × List (String × SnapVal) :=
  let r := updateAllGo tk st.metrics st.keyCache st.fullKeyCache st.snapshot
  (⟨r.1, r.2.1, r.2.2.1, r.2.2.2⟩, r.2.2.2)

/-- `MetricsManager.__cinit__` over a metrics configuration: empty key
caches and an empty snapshot. -/
def initManager (cfg : List (String × MetricState)) : ManagerState :=
  ⟨cfg, cfg.map (fun _ => []), cfg.map (fun _ => []), []⟩

/-- The sequence of snapshot dictionaries returned by `update_all`
over a tick sequence. -/
noncomputable def runAll : ManagerState → List Tick →
    List (List (String × SnapVal))
  | _, [] => []
  | st, tk :: ticks => (updateAll st tk).2 :: runAll (updateAll st tk).1 ticks

/-- C1: for any fixed metrics configuration, two runs of
`MetricsManager.update_all` over the identical finite tick sequence
produce identical sequences of snapshot dictionaries — each metric's
state after any prefix is a function only of its constructor
parameters and the ticks seen so far, so the per-tick outputs feeding
trade emission coincide. -/
theorem manager_update_all_deterministic (cfg : List (String × MetricState))
    (ticks : List Tick) (s1 s2 : ManagerState)
    (h1 : s1 = initManager cfg) (h2 : s2 = initManager cfg) :
    runAll s1 ticks = runAll s2 ticks := by
  subst h1
  subst h2
  rfl

/-- Witness for C1 at a one-metric configuration and a one-tick
stream. -/
theorem manager_update_all_deterministic_witness :
    runAll (initManager [("sess", MetricState.session sessionInit)])
        [⟨0, some 1, some 2, some (3 / 2), 14, 30⟩] =
      runAll (initManager [("sess", MetricState.session sessionInit)])
        [⟨0, some 1, some 2, some (3 / 2), 14, 30⟩] :=
  manager_update_all_deterministic
    [("sess", MetricState.session sessionInit)]
    [⟨0, some 1, some 2, some (3 / 2), 14, 30⟩]
    (initManager [("sess", MetricState.session sessionInit)])
    (initManager [("sess", MetricState.session sessionInit)]) rfl rfl

end TickBacktest
